import Mathlib

/-!
Verification development for the `inspect` command of the ion-cli repository
(`src/bin/ion/commands/beta/inspect.rs`).

The file shallowly embeds the inspection engine: the recursive traversal
`inspect_level` with its skip/limit byte window, the per-row rendering
functions (`write_field_if_present`, `write_annotations_if_present`,
`write_value`, `format_value`), the fixed-width table writer (`output`) and
the input-signature check (`inspect_file`).  The low-level binary decoder is
an external collaborator of the tool (the ion-rs `Reader`); following the
specification it is modelled at its interface boundary: each decoded value
carries the offsets, lengths and resolved texts the reader exposes, and the
`raw_*_bytes` accessors are modelled as exact slices of the input buffer.

Machine integers (`usize`) are modelled as `Nat`; `usize::MAX` appears as the
constant `USIZE_MAX`, and Rust's `saturating_sub` is `Nat` subtraction.
Rows additionally record two ghost fields (`kind` and `depth`) that name the
emitting call site and the reader depth at emission time; all remaining row
fields are computed exactly as the source computes the arguments of its
`output` function.
-/

/-- The value of `usize::MAX` on a 64-bit target. -/
def USIZE_MAX : Nat := 2 ^ 64 - 1

/-- A string consisting of `n` space characters. -/
def spaces (n : Nat) : String := ⟨List.replicate n ' '⟩

theorem string_data_append (s t : String) : (s ++ t).data = s.data ++ t.data := rfl

theorem string_eq_of_data {s t : String} (h : s.data = t.data) : s = t := by
  cases s
  cases t
  exact congrArg String.mk h

/-- Concatenation of a list of strings, front to back. -/
def concat_all : List String → String
  | [] => ""
  | s :: rest => s ++ concat_all rest

/-- Model of Rust's `str::trim_end`: remove trailing whitespace characters. -/
def trim_end (s : String) : String := ⟨(s.data.reverse.dropWhile Char.isWhitespace).reverse⟩

/-- Model of the `join_into` helper: values joined by `delimiter`. -/
def join_into (delimiter : String) : List String → String
  | [] => ""
  | s :: rest => s ++ concat_all (rest.map (fun v => delimiter ++ v))

/-- The lowercase hex digit for `n < 16`, as produced by Rust's `{:02x}`. -/
def hex_digit_char (n : Nat) : Char :=
  if n < 10 then Char.ofNat (48 + n) else Char.ofNat (87 + n)

/-- Two lowercase hex digits for one byte (`{:02x}` on a `u8`). -/
def hex_byte (b : Nat) : String := ⟨[hex_digit_char (b / 16), hex_digit_char (b % 16)]⟩

/-- Model of `to_hex`: bytes rendered as two hex digits each, separated by
single spaces, with no trailing separator. -/
def to_hex : List Nat → String
  | [] => ""
  | [b] => hex_byte b
  | b :: bs => hex_byte b ++ " " ++ to_hex bs

/-- Numeric value of one lowercase hex digit character, if it is one. -/
def hexCharVal (c : Char) : Option Nat :=
  if 48 ≤ c.toNat ∧ c.toNat ≤ 57 then some (c.toNat - 48)
  else if 97 ≤ c.toNat ∧ c.toNat ≤ 102 then some (c.toNat - 87)
  else none

/-- Inverse reading of a `to_hex`-shaped character sequence: pairs of hex
digits separated by single spaces (a trailing space is permitted). -/
def parse_hex : List Char → Option (List Nat)
  | [] => some []
  | [c1, c2] =>
    match hexCharVal c1, hexCharVal c2 with
    | some h, some l => some [16 * h + l]
    | _, _ => none
  | c1 :: c2 :: ' ' :: rest =>
    match hexCharVal c1, hexCharVal c2, parse_hex rest with
    | some h, some l, some bs => some ((16 * h + l) :: bs)
    | _, _, _ => none
  | _ => none

/-- The half-open slice `[start, start + len)` of a byte buffer. -/
def list_slice (buf : List Nat) (start len : Nat) : List Nat := (buf.drop start).take len

/-- The Ion value categories exposed by the reader (`ion_rs::IonType`). -/
inductive IonType where
  | null
  | boolean
  | integer
  | float
  | decimal
  | timestamp
  | symbol
  | string
  | clob
  | blob
  | list
  | sexpression
  | struct
  deriving DecidableEq, Repr

/-- Model of `IonType::is_container`. -/
def IonType.is_container : IonType → Bool
  | .list => true
  | .sexpression => true
  | .struct => true
  | _ => false

/-- Field-name information for a value whose parent is a struct.  Modelled
from the spec: the reader exposes `field_id`, `field_name`,
`field_id_offset` and `field_id_length` together whenever a field id is
present. -/
structure FieldInfo where
  field_id : Nat
  field_name : String
  field_id_offset : Nat
  field_id_length : Nat
  deriving DecidableEq, Repr

/-- Annotation information for an annotated value.  Modelled from the spec:
the reader exposes the annotation ids, their resolved texts, and the byte
range of the annotations wrapper together whenever annotations are
present. -/
structure AnnotationsInfo where
  annotation_ids : List Nat
  annotations : List String
  annotations_offset : Nat
  annotations_length : Nat
  deriving DecidableEq, Repr

/-- Per-value metadata exposed by the reader while parked on a value.
Modelled from the spec at the decoder interface boundary.  Following the
reader's convention (visible in the source's
`TYPE_DESCRIPTOR_SIZE + header_length() + value_length()`), `header_length`
counts the header bytes after the one-byte type descriptor, and the header
part of the encoding spans `[header_offset, header_offset + 1 + header_length)`
with the value body following contiguously.  `scalar_text` is the text the
external serializer produces for the value when it is a scalar (or a null),
and `symbol_sid` is the symbol id for symbol values. -/
structure ValueMeta where
  header_offset : Nat
  header_length : Nat
  value_length : Nat
  is_null : Bool
  field_info : Option FieldInfo
  annotations_info : Option AnnotationsInfo
  scalar_text : String
  symbol_sid : Nat
  deriving DecidableEq, Repr

/-- A decoded value together with its children (empty for scalars).  The
decoder produces values one at a time; a tree collects, per value, exactly
what the traversal of `inspect_level` can observe of it. -/
inductive IonTree where
  | node (ion_type : IonType) (meta : ValueMeta) (children : List IonTree)

/-- The byte range abstraction used by `complete_value_range` (the source's
`std::ops::Range<usize>`). -/
structure ByteRange where
  start : Nat
  stop : Nat
  deriving DecidableEq, Repr

/-- Model of `Range::len`. -/
def ByteRange.len (r : ByteRange) : Nat := r.stop - r.start

def IonTree.ion_type : IonTree → IonType
  | .node t _ _ => t

def IonTree.meta : IonTree → ValueMeta
  | .node _ m _ => m

def IonTree.children : IonTree → List IonTree
  | .node _ _ c => c

/-- Model of `IonInspector::first_value_byte_offset`: the offset of the first
byte pertaining to the current value (field id first, then annotations, then
the header). -/
def first_value_byte_offset (m : ValueMeta) : Nat :=
  match m.field_info with
  | some f => f.field_id_offset
  | none =>
    match m.annotations_info with
    | some a => a.annotations_offset
    | none => m.header_offset

/-- Modelled from the spec: `reader.value_range().end`, the offset one past
the value's body (for containers, one past the nested content). -/
def value_end (m : ValueMeta) : Nat :=
  m.header_offset + 1 + m.header_length + m.value_length

/-- Model of `IonInspector::complete_value_range`. -/
def complete_value_range (m : ValueMeta) : ByteRange :=
  ⟨first_value_byte_offset m, value_end m⟩

/-- Start of a value's complete range. -/
def tree_start (v : IonTree) : Nat := (complete_value_range v.meta).start

/-- End of a value's complete range. -/
def tree_end (v : IonTree) : Nat := (complete_value_range v.meta).stop

/-- Modelled from the spec: `reader.raw_header_bytes()`, the exact slice of
the header part (type descriptor plus trailing header bytes). -/
def raw_header_bytes (buf : List Nat) (m : ValueMeta) : List Nat :=
  list_slice buf m.header_offset (1 + m.header_length)

/-- Modelled from the spec: `reader.raw_value_bytes()`, the exact slice of
the value body. -/
def raw_value_bytes (buf : List Nat) (m : ValueMeta) : List Nat :=
  list_slice buf (m.header_offset + 1 + m.header_length) m.value_length

/-- Modelled from the spec: `reader.raw_field_id_bytes()`. -/
def raw_field_id_bytes (buf : List Nat) (f : FieldInfo) : List Nat :=
  list_slice buf f.field_id_offset f.field_id_length

/-- Modelled from the spec: `reader.raw_annotations_bytes()`. -/
def raw_annotations_bytes (buf : List Nat) (a : AnnotationsInfo) : List Nat :=
  list_slice buf a.annotations_offset a.annotations_length

/-- The call site that produced a row (ghost instrumentation; the source's
`output` function receives only the remaining fields). -/
inductive RowKind where
  | field_id
  | annotations_row
  | value
  | skip_comment
  | limit_comment
  | closing
  deriving DecidableEq, Repr

/-- One logical row handed to the table writer: the arguments of one call of
the source's `output` function, plus the ghost fields `kind` and `depth`
(the reader depth at emission time). -/
structure Row where
  kind : RowKind
  depth : Nat
  offset : Option Nat
  length : Option Nat
  indentation : String
  hex : String
  text : String
  deriving DecidableEq, Repr

/-- Model of `LEVEL_INDENTATION`: two spaces per nesting level. -/
def LEVEL_INDENTATION : String := "  "

/-- Model of `TYPE_DESCRIPTOR_SIZE`. -/
def TYPE_DESCRIPTOR_SIZE : Nat := 1

/-- The comment row emitted when `--limit-bytes` is reached; its message
depends on `reader.depth()` at that point. -/
def limitRow (ind : String) (d : Nat) : Row :=
  ⟨RowKind.limit_comment, d, none, none, ind, "...",
    if 0 < d then "// --limit-bytes reached, stepping out."
    else "// --limit-bytes reached, ending."⟩

/-- The comment row reporting bytes skipped at the current level. -/
def skipRow (ind : String) (d : Nat) (n : Nat) : Row :=
  ⟨RowKind.skip_comment, d, none, none, ind, "...",
    "// Skipped " ++ toString n ++ " bytes of user-level data"⟩

/-- Model of `closing_delimiter_for`.  The source panics on non-containers;
the function is never applied to one, so the model returns `""` there. -/
def closing_delimiter_for : IonType → String
  | .list => "]"
  | .sexpression => ")"
  | .struct => "\x7d"
  | _ => ""

/-- The closing-delimiter row emitted after stepping out of a container. -/
def closingRow (ind : String) (d : Nat) (t : IonType) : Row :=
  ⟨RowKind.closing, d, none, none, ind, "", closing_delimiter_for t⟩

/-- The opening delimiter written by `format_value` for a non-null
container. -/
def opening_delimiter_for : IonType → String
  | .list => "["
  | .sexpression => "("
  | .struct => "\x7b"
  | _ => ""

/-- The dimmed inline comment `format_value` appends: the symbol id for a
non-null symbol value, nothing otherwise. -/
def scalar_comment_of (t : IonType) (m : ValueMeta) : String :=
  if m.is_null = false ∧ t = IonType.symbol then " // $" ++ toString m.symbol_sid
  else ""

/-- Model of `IonInspector::format_value`: null values and scalars render as
the serializer's text (trailing whitespace trimmed) followed by a comma when
the reader depth is positive and then the inline comment; non-null
containers render as their opening delimiter alone. -/
def format_value (d : Nat) (t : IonType) (m : ValueMeta) : String :=
  if m.is_null then
    trim_end m.scalar_text ++ (if 0 < d then "," else "") ++ scalar_comment_of t m
  else if t.is_container then
    opening_delimiter_for t
  else
    trim_end m.scalar_text ++ (if 0 < d then "," else "") ++ scalar_comment_of t m

/-- The inspector's run-wide configuration: the input buffer and the byte
window (`IonInspector`'s non-scratch state). -/
structure IonInspector where
  data : List Nat
  bytes_to_skip : Nat
  limit_bytes : Nat

/-- Model of `IonInspector::write_field_if_present`: one row per field id,
showing the raw field-id bytes and `'name': // $id:`. -/
def write_field_if_present (buf : List Nat) (d : Nat) (ind : String) (m : ValueMeta) : List Row :=
  match m.field_info with
  | none => []
  | some f =>
    [⟨RowKind.field_id, d, some f.field_id_offset, some f.field_id_length, ind,
      to_hex (raw_field_id_bytes buf f),
      "\x27" ++ f.field_name ++ "\x27: // $" ++ toString f.field_id ++ ":"⟩]

/-- Model of `IonInspector::write_annotations_if_present`: one row per
annotations wrapper, showing its raw bytes and the quoted annotation texts
followed by the dimmed id list. -/
def write_annotations_if_present (buf : List Nat) (d : Nat) (ind : String) (m : ValueMeta) : List Row :=
  match m.annotations_info with
  | none => []
  | some a =>
    [⟨RowKind.annotations_row, d, some a.annotations_offset, some a.annotations_length, ind,
      to_hex (raw_annotations_bytes buf a),
      "\x27" ++ join_into "\x27::\x27" a.annotations ++ "\x27::" ++
        " // $" ++ join_into "::$" (a.annotation_ids.map toString) ++ "::"⟩]

/-- Model of `IonInspector::write_value`: the value row.  Its hex column is
the header bytes, with the body bytes appended (after one space) only for
non-containers; its length column is
`TYPE_DESCRIPTOR_SIZE + header_length + value_length`. -/
def write_value (buf : List Nat) (d : Nat) (ind : String) (t : IonType) (m : ValueMeta) : Row :=
  ⟨RowKind.value, d, some m.header_offset,
    some (TYPE_DESCRIPTOR_SIZE + m.header_length + m.value_length), ind,
    to_hex (raw_header_bytes buf m) ++
      (if t.is_container = false then " " ++ to_hex (raw_value_bytes buf m) else ""),
    format_value d t m⟩

/-- Model of `IonInspector::increase_indentation`: push one level of
indentation unless the reader is at the top level. -/
def increase_indentation (d : Nat) (ind : String) : String :=
  if 0 < d then ind ++ LEVEL_INDENTATION else ind

/-- Model of `IonInspector::decrease_indentation`: truncate one level of
indentation unless the reader is at the top level. -/
def decrease_indentation (d : Nat) (ind : String) : String :=
  if 0 < d then ⟨ind.data.take (ind.data.length - LEVEL_INDENTATION.length)⟩ else ind

/-- The loop body of `IonInspector::inspect_level`, at reader depth `d` with
working indentation `ind` and the running `bytes_skipped_this_level` counter
`skipped`, over the values remaining at this level.  Each iteration: skip a
value wholly inside the skip window (accumulating its complete-range
length); stop with one comment row when the limit is reached; otherwise
flush a pending skip comment, emit the field/annotations/value rows, and for
containers recurse one level deeper and emit the closing delimiter row at the
current indentation. -/
def inspect_go (insp : IonInspector) (d : Nat) (ind : String) (skipped : Nat) :
    List IonTree → List Row
  | [] => []
  | IonTree.node t m children :: rest =>
    if (complete_value_range m).stop ≤ insp.bytes_to_skip then
      inspect_go insp d ind (skipped + (complete_value_range m).len) rest
    else if insp.limit_bytes ≤ (complete_value_range m).start - insp.bytes_to_skip then
      [limitRow ind d]
    else
      (if 0 < skipped then [skipRow ind d skipped] else [])
        ++ write_field_if_present insp.data d ind m
        ++ write_annotations_if_present insp.data d ind m
        ++ [write_value insp.data d ind t m]
        ++ (if t.is_container then
              inspect_go insp (d + 1) (increase_indentation (d + 1) ind) 0 children
                ++ [closingRow ind d t]
            else [])
        ++ inspect_go insp d ind 0 rest
  termination_by vs => sizeOf vs
  decreasing_by all_goals (simp; try omega)

/-- Model of `IonInspector::inspect_level` at reader depth `d`, entered with
indentation buffer `ind`: indentation is increased on entry and the loop
runs with a zeroed per-level skip counter.  The matching decrease on exit
restores the entry buffer and contributes no rows. -/
def inspect_level (insp : IonInspector) (d : Nat) (ind : String) (vs : List IonTree) : List Row :=
  inspect_go insp d (increase_indentation d ind) 0 vs

/-- One whole run of the inspection core over the decoded top-level values:
`inspect_level` at reader depth `0` with an empty indentation buffer. -/
def inspect (insp : IonInspector) (vs : List IonTree) : List Row :=
  inspect_level insp 0 "" vs

/-- Model of `COLUMN_DELIMITER`. -/
def COLUMN_DELIMITER : String := " | "

/-- Model of `CHARS_PER_HEX_BYTE`. -/
def CHARS_PER_HEX_BYTE : Nat := 3

/-- Model of `HEX_BYTES_PER_ROW`. -/
def HEX_BYTES_PER_ROW : Nat := 8

/-- Model of `HEX_COLUMN_SIZE`. -/
def HEX_COLUMN_SIZE : Nat := HEX_BYTES_PER_ROW * CHARS_PER_HEX_BYTE

/-- One physical line written by the `output` function, split into its
columns: the nine-character offset and length fields, the hex fragment of
this line with the number of padding spaces written after it, and the final
text column (which includes the leading space and indentation on a first
line and is empty on continuation lines). -/
structure OutLine where
  offset_col : String
  length_col : String
  hex_fragment : String
  hex_padding : Nat
  text_col : String
  deriving DecidableEq, Repr

/-- The physical text of one line: columns joined by the delimiter, with the
padding spaces after the hex fragment, exactly as the source's sequence of
`write!` calls produces it. -/
def OutLine.render (l : OutLine) : String :=
  l.offset_col ++ COLUMN_DELIMITER ++ l.length_col ++ COLUMN_DELIMITER ++
    l.hex_fragment ++ spaces l.hex_padding ++ COLUMN_DELIMITER ++ l.text_col

/-- A nine-character column holding a right-aligned number (`{:9}`) or
spaces when absent. -/
def column_9 (v : Option Nat) : String :=
  match v with
  | some n => spaces (9 - (toString n).length) ++ toString n
  | none => spaces 9

/-- The continuation lines of the `output` function's second loop: each line
carries blank offset/length columns and the next `HEX_COLUMN_SIZE`
characters of the hex string, space-padded to the column size. -/
def hex_continuation_rows : List Char → List OutLine
  | [] => []
  | c :: cs =>
    ⟨spaces 9, spaces 9, ⟨(c :: cs).take HEX_COLUMN_SIZE⟩,
      HEX_COLUMN_SIZE - min (c :: cs).length HEX_COLUMN_SIZE, ""⟩
      :: hex_continuation_rows ((c :: cs).drop HEX_COLUMN_SIZE)
  termination_by cs => cs.length
  decreasing_by simp [HEX_COLUMN_SIZE, HEX_BYTES_PER_ROW, CHARS_PER_HEX_BYTE]; omega

/-- Model of the `output` function: the list of physical lines written for
one logical row.  The first line holds the offset and length columns, the
first `HEX_COLUMN_SIZE` characters of the hex string (space-padded when the
string is shorter), and the text column prefixed by one space and the
indentation; the remaining hex characters wrap onto continuation lines. -/
def output (offset : Option Nat) (length : Option Nat) (indentation : String)
    (hex_column : String) (text_column : String) : List OutLine :=
  ⟨column_9 offset, column_9 length,
    (if hex_column.length < HEX_COLUMN_SIZE then hex_column
     else ⟨hex_column.data.take HEX_COLUMN_SIZE⟩),
    (if hex_column.length < HEX_COLUMN_SIZE then HEX_COLUMN_SIZE - hex_column.length else 0),
    " " ++ indentation ++ text_column⟩
    :: hex_continuation_rows (hex_column.data.drop HEX_COLUMN_SIZE)

/-- A string centered in a field of width `w` (`{:^w}`), extra space going to
the right. -/
def center_pad (w : Nat) (s : String) : String :=
  spaces ((w - s.length) / 2) ++ s ++ spaces (w - s.length - (w - s.length) / 2)

/-- Model of `write_header`: a rule line, the titled column header, and a
second rule line. -/
def write_header_lines : List String :=
  [⟨List.replicate (24 + 24 + 9 + 9 + COLUMN_DELIMITER.length * 3) '-'⟩,
   center_pad 9 "Offset" ++ COLUMN_DELIMITER ++ center_pad 9 "Length" ++ COLUMN_DELIMITER ++
     center_pad 24 "Binary Ion" ++ COLUMN_DELIMITER ++ center_pad 24 "Text Ion",
   ⟨List.replicate (24 + 24 + 9 + 9 + COLUMN_DELIMITER.length * 3) '-'⟩]

/-- Model of `inspect_file` on an already-mapped byte buffer: the input must
begin with the binary Ion version marker `E0 01 00 EA`, in which case the
header is written and `inspect_level` runs over the decoded stream
(`decoded` stands for the reader's parse of `ion_data`); otherwise the run
fails with an error naming the input, and the inspection core is never
invoked. -/
def inspect_file (input_file_name : String) (ion_data : List Nat) (decoded : List IonTree)
    (bytes_to_skip limit_bytes : Nat) : Except String (List String × List Row) :=
  match ion_data with
  | 0xE0 :: 0x01 :: 0x00 :: 0xEA :: _ =>
    Except.ok (write_header_lines, inspect ⟨ion_data, bytes_to_skip, limit_bytes⟩ decoded)
  | _ =>
    Except.error ("Input file \x27" ++ input_file_name ++ "\x27 does not appear to be binary Ion.")

/-- Model of the `--limit-bytes` normalization in `run`: a value of `0`
means "no limit" and becomes `usize::MAX` before the inspector is built. -/
def normalize_limit_bytes (limit_bytes : Nat) : Nat :=
  if limit_bytes = 0 then USIZE_MAX else limit_bytes

/-- Decoder well-formedness of a sibling sequence whose complete ranges lie
inside `[lo, hi]`: values appear in stream order with contiguous,
non-overlapping ranges, each value's parts precede its header's end, and a
container's children lie inside its body.  This is the spec's ByteRange
invariant at the decoder interface boundary. -/
def forest_wf (lo hi : Nat) : List IonTree → Prop
  | [] => True
  | IonTree.node t m children :: rest =>
    lo ≤ first_value_byte_offset m ∧
    first_value_byte_offset m ≤ m.header_offset ∧
    value_end m ≤ hi ∧
    (t.is_container = false → children = []) ∧
    forest_wf (m.header_offset + 1 + m.header_length) (value_end m) children ∧
    forest_wf (value_end m) hi rest
  termination_by vs => sizeOf vs
  decreasing_by all_goals (simp; try omega)

/-- Every value of a forest, each value followed by its descendants, in
stream order. -/
def all_values : List IonTree → List IonTree
  | [] => []
  | IonTree.node t m children :: rest =>
    IonTree.node t m children :: (all_values children ++ all_values rest)
  termination_by vs => sizeOf vs
  decreasing_by all_goals (simp; try omega)

/-- Total complete-range length of the maximal prefix of siblings that fall
entirely inside the skip window. -/
def skip_run_len (k : Nat) : List IonTree → Nat
  | [] => 0
  | v :: rest => if tree_end v ≤ k then (tree_end v - tree_start v) + skip_run_len k rest else 0

/-- The siblings remaining after the maximal prefix suppressed by the skip
window. -/
def drop_suppressed (k : Nat) : List IonTree → List IonTree
  | [] => []
  | v :: rest => if tree_end v ≤ k then drop_suppressed k rest else v :: rest

/-- After the first limit comment in a row list, only limit comments and
closing-delimiter rows may follow. -/
def tail_rows_ok : List Row → Prop
  | [] => True
  | r :: rest =>
    if r.kind = RowKind.limit_comment then
      ∀ s ∈ rest, s.kind = RowKind.limit_comment ∨ s.kind = RowKind.closing
    else tail_rows_ok rest

theorem hexCharVal_hex_digit_char : ∀ n, n < 16 → hexCharVal (hex_digit_char n) = some n := by
  decide

theorem hex_byte_data (b : Nat) :
    (hex_byte b).data = [hex_digit_char (b / 16), hex_digit_char (b % 16)] := rfl

theorem parse_hex_pair (c1 c2 : Char) (h l : Nat) (rest : List Char)
    (h1 : hexCharVal c1 = some h) (h2 : hexCharVal c2 = some l) :
    parse_hex (c1 :: c2 :: ' ' :: rest) = (parse_hex rest).map (fun bs => (16 * h + l) :: bs) := by
  cases hr : parse_hex rest <;> simp [parse_hex, h1, h2, hr]

theorem parse_hex_single (c1 c2 : Char) (h l : Nat)
    (h1 : hexCharVal c1 = some h) (h2 : hexCharVal c2 = some l) :
    parse_hex [c1, c2] = some [16 * h + l] := by
  simp [parse_hex, h1, h2]

theorem hex_byte_parse (b : Nat) (hb : b < 256) (rest : List Char) :
    parse_hex (hex_digit_char (b / 16) :: hex_digit_char (b % 16) :: ' ' :: rest)
      = (parse_hex rest).map (fun bs => b :: bs) := by
  have h1 := hexCharVal_hex_digit_char (b / 16) (by omega)
  have h2 := hexCharVal_hex_digit_char (b % 16) (by omega)
  rw [parse_hex_pair _ _ _ _ _ h1 h2]
  have : 16 * (b / 16) + b % 16 = b := by omega
  rw [this]

theorem parse_hex_to_hex : ∀ bs : List Nat, (∀ b ∈ bs, b < 256) →
    parse_hex (to_hex bs).data = some bs := by
  intro bs
  induction bs using to_hex.induct with
  | case1 => intro _; simp [to_hex, parse_hex]
  | case2 b =>
    intro hb
    have hb256 : b < 256 := hb b (by simp)
    have h1 := hexCharVal_hex_digit_char (b / 16) (by omega)
    have h2 := hexCharVal_hex_digit_char (b % 16) (by omega)
    have : (to_hex [b]).data = [hex_digit_char (b / 16), hex_digit_char (b % 16)] := rfl
    rw [this, parse_hex_single _ _ _ _ h1 h2]
    have : 16 * (b / 16) + b % 16 = b := by omega
    rw [this]
  | case3 b bs hne ih =>
    intro hb
    have hb256 : b < 256 := hb b (by simp)
    have hdata : (to_hex (b :: bs)).data
        = hex_digit_char (b / 16) :: hex_digit_char (b % 16) :: ' ' :: (to_hex bs).data := by
      cases bs with
      | nil => exact absurd rfl hne
      | cons x xs =>
        show (hex_byte b ++ " " ++ to_hex (x :: xs)).data = _
        rw [string_data_append, string_data_append]
        rfl
    rw [hdata, hex_byte_parse b hb256]
    rw [ih (fun x hx => hb x (List.mem_cons_of_mem _ hx))]
    rfl

theorem parse_hex_to_hex_append : ∀ bs : List Nat, ∀ cs : List Char, bs ≠ [] →
    (∀ b ∈ bs, b < 256) →
    parse_hex ((to_hex bs).data ++ ' ' :: cs) = (parse_hex cs).map (fun ds => bs ++ ds) := by
  intro bs
  induction bs using to_hex.induct with
  | case1 => intro _ h; exact absurd rfl h
  | case2 b =>
    intro cs _ hb
    have hb256 : b < 256 := hb b (by simp)
    have : (to_hex [b]).data ++ ' ' :: cs
        = hex_digit_char (b / 16) :: hex_digit_char (b % 16) :: ' ' :: cs := rfl
    rw [this, hex_byte_parse b hb256]
    cases parse_hex cs <;> rfl
  | case3 b bs hne ih =>
    intro cs _ hb
    have hb256 : b < 256 := hb b (by simp)
    have hdata : (to_hex (b :: bs)).data ++ ' ' :: cs
        = hex_digit_char (b / 16) :: hex_digit_char (b % 16) :: ' ' :: ((to_hex bs).data ++ ' ' :: cs) := by
      cases bs with
      | nil => exact absurd rfl hne
      | cons x xs =>
        show (hex_byte b ++ " " ++ to_hex (x :: xs)).data ++ ' ' :: cs = _
        rw [string_data_append, string_data_append]
        rfl
    rw [hdata, hex_byte_parse b hb256]
    rw [ih cs (by intro hc; exact hne hc) (fun x hx => hb x (List.mem_cons_of_mem _ hx))]
    cases parse_hex cs <;> rfl

theorem list_slice_append (buf : List Nat) (s l1 l2 : Nat) :
    list_slice buf s l1 ++ list_slice buf (s + l1) l2 = list_slice buf s (l1 + l2) := by
  simp only [list_slice]
  rw [List.take_add]
  congr 1
  rw [List.drop_drop]

theorem list_slice_length (buf : List Nat) (s l : Nat) (h : s + l ≤ buf.length) :
    (list_slice buf s l).length = l := by
  simp [list_slice]
  omega

theorem list_slice_subset (buf : List Nat) (s l : Nat) : ∀ b ∈ list_slice buf s l, b ∈ buf := by
  intro b hb
  exact List.drop_subset _ _ (List.take_subset _ _ hb)

/-- C3: for every scalar value row, the hex column (header bytes followed by
body bytes) reads back as exactly the literal bytes of the source buffer at
`[header_offset, header_offset + headerPartLen + value_length)`, where
`headerPartLen = TYPE_DESCRIPTOR_SIZE + header_length` is the length of the
header part shown in hex, and the length column reports the size of that
range. -/
theorem c3_value_row_hex (buf : List Nat) (d : Nat) (ind : String) (t : IonType) (m : ValueMeta)
    (hs : t.is_container = false)
    (hb : ∀ b ∈ buf, b < 256)
    (hlen : m.header_offset + (TYPE_DESCRIPTOR_SIZE + m.header_length + m.value_length)
      ≤ buf.length) :
    parse_hex (write_value buf d ind t m).hex.data
      = some (list_slice buf m.header_offset
          (TYPE_DESCRIPTOR_SIZE + m.header_length + m.value_length)) ∧
    (write_value buf d ind t m).length
      = some (TYPE_DESCRIPTOR_SIZE + m.header_length + m.value_length) := by
  constructor
  · have hex_eq : (write_value buf d ind t m).hex
        = to_hex (raw_header_bytes buf m) ++ (" " ++ to_hex (raw_value_bytes buf m)) := by
      simp [write_value, hs]
    rw [hex_eq, string_data_append]
    have hsp : (" " ++ to_hex (raw_value_bytes buf m)).data
        = ' ' :: (to_hex (raw_value_bytes buf m)).data := rfl
    rw [hsp]
    have hA : raw_header_bytes buf m ≠ [] := by
      have hl2 := list_slice_length buf m.header_offset (1 + m.header_length)
        (by simp [TYPE_DESCRIPTOR_SIZE] at hlen; omega)
      intro hnil
      rw [raw_header_bytes] at hnil
      rw [hnil] at hl2
      simp at hl2
      omega
    have hA256 : ∀ b ∈ raw_header_bytes buf m, b < 256 :=
      fun b hb2 => hb b (list_slice_subset _ _ _ b hb2)
    have hB256 : ∀ b ∈ raw_value_bytes buf m, b < 256 :=
      fun b hb2 => hb b (list_slice_subset _ _ _ b hb2)
    rw [parse_hex_to_hex_append _ _ hA hA256, parse_hex_to_hex _ hB256]
    have h2 : m.header_offset + 1 + m.header_length = m.header_offset + (1 + m.header_length) := by
      omega
    simp only [Option.map, raw_header_bytes, raw_value_bytes, h2, list_slice_append]
    simp [TYPE_DESCRIPTOR_SIZE]
  · simp [write_value]

theorem c3_value_row_hex_witness :
    (IonType.integer.is_container = false) ∧
    ((4 : Nat) + (TYPE_DESCRIPTOR_SIZE + 0 + 1) ≤ ([224, 1, 0, 234, 33, 7] : List Nat).length) ∧
    parse_hex (write_value [224, 1, 0, 234, 33, 7] 0 "" IonType.integer
        ⟨4, 0, 1, false, none, none, "7", 0⟩).hex.data
      = some (list_slice [224, 1, 0, 234, 33, 7] 4 (TYPE_DESCRIPTOR_SIZE + 0 + 1)) := by
  refine ⟨rfl, by decide, ?_⟩
  exact (c3_value_row_hex [224, 1, 0, 234, 33, 7] 0 "" IonType.integer
    ⟨4, 0, 1, false, none, none, "7", 0⟩ rfl (by decide) (by decide)).1

theorem hex_continuation_rows_join : ∀ cs : List Char,
    concat_all ((hex_continuation_rows cs).map OutLine.hex_fragment) = ⟨cs⟩ := by
  intro cs
  induction cs using hex_continuation_rows.induct with
  | case1 =>
    rw [hex_continuation_rows]
    rfl
  | case2 c cs ih =>
    rw [hex_continuation_rows]
    simp only [List.map_cons, concat_all]
    rw [ih]
    apply string_eq_of_data
    rw [string_data_append]
    exact List.take_append_drop _ _

theorem hex_continuation_rows_shape : ∀ cs : List Char, ∀ l ∈ hex_continuation_rows cs,
    l.offset_col = spaces 9 ∧ l.length_col = spaces 9 ∧ l.text_col = "" ∧
    l.hex_fragment.length + l.hex_padding = HEX_COLUMN_SIZE := by
  intro cs
  induction cs using hex_continuation_rows.induct with
  | case1 => intro l hl; simp [hex_continuation_rows] at hl
  | case2 c cs ih =>
    intro l hl
    rw [hex_continuation_rows] at hl
    rcases List.mem_cons.mp hl with h | h
    · subst h
      refine ⟨rfl, rfl, rfl, ?_⟩
      simp [String.length, List.length_take]
      omega
    · exact ih l h

/-- C8: for every call of the `output` function, the hex fragments written
across the first line and all continuation lines concatenate back to the
input hex string; a hex string shorter than the column capacity produces
exactly one line, padded to exactly the capacity; every line's hex field
(fragment plus padding) is exactly the capacity wide; every continuation
line carries blank offset and length columns and no text; and the text
column appears exactly once, on the first line, prefixed by one space and
the indentation string. -/
theorem c8_output_wrapping (offset length : Option Nat) (ind hex text : String) :
    concat_all ((output offset length ind hex text).map OutLine.hex_fragment) = hex ∧
    (hex.length < HEX_COLUMN_SIZE →
      output offset length ind hex text
        = [⟨column_9 offset, column_9 length, hex, HEX_COLUMN_SIZE - hex.length,
            " " ++ ind ++ text⟩]) ∧
    (∀ l ∈ output offset length ind hex text,
      l.hex_fragment.length + l.hex_padding = HEX_COLUMN_SIZE) ∧
    (∀ l ∈ (output offset length ind hex text).tail,
      l.offset_col = spaces 9 ∧ l.length_col = spaces 9 ∧ l.text_col = "") ∧
    (output offset length ind hex text).head?.map OutLine.text_col
      = some (" " ++ ind ++ text) := by
  refine ⟨?_, ?_, ?_, ?_, ?_⟩
  · rw [output]
    simp only [List.map_cons, concat_all]
    rw [hex_continuation_rows_join]
    by_cases hlt : hex.length < HEX_COLUMN_SIZE
    · simp only [hlt, if_pos]
      have hdrop : hex.data.drop HEX_COLUMN_SIZE = [] := by
        apply List.drop_eq_nil_of_le
        exact Nat.le_of_lt hlt
      rw [hdrop]
      apply string_eq_of_data
      rw [string_data_append]
      simp
    · simp only [hlt, if_neg, not_false_iff]
      apply string_eq_of_data
      rw [string_data_append]
      exact List.take_append_drop _ _
  · intro hlt
    rw [output]
    have hdrop : hex.data.drop HEX_COLUMN_SIZE = [] := by
      apply List.drop_eq_nil_of_le
      exact Nat.le_of_lt hlt
    rw [hdrop]
    simp [hex_continuation_rows, hlt]
  · intro l hl
    rw [output] at hl
    rcases List.mem_cons.mp hl with h | h
    · subst h
      by_cases hlt : hex.length < HEX_COLUMN_SIZE
      · simp only [hlt, if_pos]
        omega
      · simp only [hlt, if_neg, not_false_iff]
        have h1 : (String.mk (hex.data.take HEX_COLUMN_SIZE)).length
            = (hex.data.take HEX_COLUMN_SIZE).length := rfl
        have h2 : hex.length = hex.data.length := rfl
        rw [h1, List.length_take]
        omega
    · exact (hex_continuation_rows_shape _ l h).2.2.2
  · intro l hl
    rw [output] at hl
    simp only [List.tail_cons] at hl
    have h := hex_continuation_rows_shape _ l hl
    exact ⟨h.1, h.2.1, h.2.2.1⟩
  · rw [output]
    rfl

theorem c8_output_wrapping_witness :
    (("e0 01 00 ea" : String).length < HEX_COLUMN_SIZE) ∧
    concat_all ((output (some 0) (some 4) "" "e0 01 00 ea" "// test").map OutLine.hex_fragment)
      = "e0 01 00 ea" := by
  exact ⟨by decide, (c8_output_wrapping (some 0) (some 4) "" "e0 01 00 ea" "// test").1⟩

theorem write_field_if_present_mem (buf : List Nat) (d : Nat) (ind : String) (m : ValueMeta) :
    ∀ r ∈ write_field_if_present buf d ind m,
      r.indentation = ind ∧ r.depth = d ∧ r.kind = RowKind.field_id := by
  intro r hr
  rw [write_field_if_present] at hr
  match hm : m.field_info with
  | none => rw [hm] at hr; simp at hr
  | some f =>
    rw [hm] at hr
    simp at hr
    subst hr
    exact ⟨rfl, rfl, rfl⟩

theorem write_annotations_if_present_mem (buf : List Nat) (d : Nat) (ind : String) (m : ValueMeta) :
    ∀ r ∈ write_annotations_if_present buf d ind m,
      r.indentation = ind ∧ r.depth = d ∧ r.kind = RowKind.annotations_row := by
  intro r hr
  rw [write_annotations_if_present] at hr
  match hm : m.annotations_info with
  | none => rw [hm] at hr; simp at hr
  | some a =>
    rw [hm] at hr
    simp at hr
    subst hr
    exact ⟨rfl, rfl, rfl⟩

theorem inspect_go_display_mem {insp : IonInspector} {d : Nat} {ind : String} {skipped : Nat}
    {t : IonType} {m : ValueMeta} {children rest : List IonTree} {r : Row}
    (hskip : ¬ (complete_value_range m).stop ≤ insp.bytes_to_skip)
    (hlim : ¬ insp.limit_bytes ≤ (complete_value_range m).start - insp.bytes_to_skip)
    (hr : r ∈ inspect_go insp d ind skipped (IonTree.node t m children :: rest)) :
    (0 < skipped ∧ r = skipRow ind d skipped) ∨
    r ∈ write_field_if_present insp.data d ind m ∨
    r ∈ write_annotations_if_present insp.data d ind m ∨
    r = write_value insp.data d ind t m ∨
    (t.is_container = true ∧
      (r ∈ inspect_go insp (d + 1) (increase_indentation (d + 1) ind) 0 children ∨
        r = closingRow ind d t)) ∨
    r ∈ inspect_go insp d ind 0 rest := by
  rw [inspect_go, if_neg hskip, if_neg hlim] at hr
  rcases List.mem_append.mp hr with hr | hr
  · rcases List.mem_append.mp hr with hr | hr
    · rcases List.mem_append.mp hr with hr | hr
      · rcases List.mem_append.mp hr with hr | hr
        · rcases List.mem_append.mp hr with hr | hr
          · left
            split at hr
            · exact ⟨by assumption, by simpa using hr⟩
            · simp at hr
          · right; left; exact hr
        · right; right; left; exact hr
      · right; right; right; left; simpa using hr
    · right; right; right; right; left
      split at hr
      · refine ⟨by assumption, ?_⟩
        rcases List.mem_append.mp hr with hr | hr
        · left; exact hr
        · right; simpa using hr
      · simp at hr
  · right; right; right; right; right; exact hr

theorem increase_indentation_succ_data (d : Nat) (ind : String) :
    (increase_indentation (d + 1) ind).data = ind.data ++ [' ', ' '] := by
  rw [increase_indentation, if_pos (Nat.succ_pos d)]
  rw [string_data_append]
  rfl

theorem string_empty_of_data_length {ind : String} (h : ind.data.length = 0) : ind = "" := by
  apply string_eq_of_data
  rw [List.length_eq_zero.mp h]

theorem inspect_go_indentation (insp : IonInspector) :
    ∀ (d : Nat) (ind : String) (skipped : Nat) (vs : List IonTree),
      ind.data.length = 2 * d →
      ∀ r ∈ inspect_go insp d ind skipped vs,
        r.indentation.data.length = 2 * r.depth ∧ (r.depth = 0 → r.indentation = "") := by
  apply inspect_go.induct insp
    (motive := fun d ind skipped vs =>
      ind.data.length = 2 * d →
      ∀ r ∈ inspect_go insp d ind skipped vs,
        r.indentation.data.length = 2 * r.depth ∧ (r.depth = 0 → r.indentation = ""))
  · intro d ind skipped hlen r hr
    rw [inspect_go] at hr
    simp at hr
  · intro d ind skipped t m children rest hskip ih hlen r hr
    rw [inspect_go, if_pos hskip] at hr
    exact ih hlen r hr
  · intro d ind skipped t m children rest hskip hlim hlen r hr
    rw [inspect_go, if_neg hskip, if_pos hlim] at hr
    have hreq : r = limitRow ind d := by simpa using hr
    subst hreq
    refine ⟨hlen, ?_⟩
    intro hd
    have hd2 : d = 0 := hd
    show ind = ""
    exact string_empty_of_data_length (by omega)
  · intro d ind skipped t m children rest hskip hlim ih_child ih_rest hlen r hr
    have hzero : ∀ r2 : Row, r2.indentation = ind → r2.depth = d →
        r2.indentation.data.length = 2 * r2.depth ∧ (r2.depth = 0 → r2.indentation = "") := by
      intro r2 hi hd
      rw [hi, hd]
      refine ⟨hlen, ?_⟩
      intro h0
      exact string_empty_of_data_length (by omega)
    rcases inspect_go_display_mem hskip hlim hr with
      ⟨_, hr⟩ | hr | hr | hr | ⟨hc, hr | hr⟩ | hr
    · subst hr; exact hzero _ rfl rfl
    · have h := write_field_if_present_mem insp.data d ind m r hr
      exact hzero _ h.1 h.2.1
    · have h := write_annotations_if_present_mem insp.data d ind m r hr
      exact hzero _ h.1 h.2.1
    · subst hr; exact hzero _ rfl rfl
    · apply ih_child
      · rw [increase_indentation_succ_data, List.length_append, hlen]
        simp only [List.length_cons, List.length_nil]
        omega
      · exact hr
    · subst hr; exact hzero _ rfl rfl
    · exact ih_rest hlen r hr

/-- C7: whenever `inspect_level` is entered at reader depth `d` with the
indentation buffer the enclosing level maintains (length `2 * (d - 1)`,
which is `0` at the top level), every row it emits carries an indentation
prefix of length exactly twice the depth the row was emitted at, rows at
depth `0` carry the empty indentation, and the exit decrease restores the
entry buffer exactly. -/
theorem c7_indentation_depth (insp : IonInspector) (d : Nat) (ind : String) (vs : List IonTree)
    (hind : ind.data.length = 2 * (d - 1)) :
    (∀ r ∈ inspect_level insp d ind vs,
      r.indentation.data.length = 2 * r.depth ∧ (r.depth = 0 → r.indentation = "")) ∧
    decrease_indentation d (increase_indentation d ind) = ind := by
  constructor
  · intro r hr
    refine inspect_go_indentation insp d (increase_indentation d ind) 0 vs ?_ r hr
    cases d with
    | zero =>
      rw [increase_indentation, if_neg (by omega)]
      omega
    | succ d2 =>
      rw [increase_indentation_succ_data, List.length_append, hind]
      simp only [List.length_cons, List.length_nil]
      omega
  · cases d with
    | zero =>
      rw [increase_indentation, if_neg (by omega), decrease_indentation, if_neg (by omega)]
    | succ d2 =>
      rw [decrease_indentation, if_pos (Nat.succ_pos d2)]
      apply string_eq_of_data
      show (increase_indentation (d2 + 1) ind).data.take
          ((increase_indentation (d2 + 1) ind).data.length - LEVEL_INDENTATION.length) = ind.data
      rw [increase_indentation_succ_data, List.length_append]
      have h2 : ind.data.length + ([' ', ' '] : List Char).length - LEVEL_INDENTATION.length
          = ind.data.length := by
        simp only [List.length_cons, List.length_nil]
        rfl
      rw [h2]
      exact List.take_left _ _

theorem c7_indentation_depth_witness :
    (("" : String).data.length = 2 * (0 - 1)) ∧
    decrease_indentation 0 (increase_indentation 0 "") = "" := by
  exact ⟨by decide,
    (c7_indentation_depth ⟨[], 0, 0⟩ 0 ""
      [IonTree.node IonType.integer ⟨4, 0, 1, false, none, none, "7", 0⟩ []] (by decide)).2⟩

theorem complete_value_range_start (m : ValueMeta) :
    (complete_value_range m).start = first_value_byte_offset m := rfl

theorem complete_value_range_stop (m : ValueMeta) :
    (complete_value_range m).stop = value_end m := rfl

theorem tree_end_node (t : IonType) (m : ValueMeta) (c : List IonTree) :
    tree_end (IonTree.node t m c) = value_end m := rfl

theorem tree_start_node (t : IonType) (m : ValueMeta) (c : List IonTree) :
    tree_start (IonTree.node t m c) = first_value_byte_offset m := rfl

/-- C2: with a positive byte limit in force, as soon as the engine reaches a
value (not wholly inside the skip window) whose
`bytes_processed = range.start.saturating_sub(bytes_to_skip)` has hit the
limit, `inspect_level` emits exactly one comment row — with no offset,
length or hex payload, reading "stepping out" at positive depth and
"ending" at depth `0` — and returns immediately, emitting nothing for that
value; and a `--limit-bytes` argument of `0` is normalized to `usize::MAX`
(unbounded) before use. -/
theorem c2_limit_reached (insp : IonInspector) (d : Nat) (ind : String) (skipped : Nat)
    (t : IonType) (m : ValueMeta) (children rest : List IonTree)
    (_hm : 0 < insp.limit_bytes)
    (hskip : insp.bytes_to_skip < (complete_value_range m).stop)
    (hlim : insp.limit_bytes ≤ (complete_value_range m).start - insp.bytes_to_skip) :
    inspect_go insp d ind skipped (IonTree.node t m children :: rest) = [limitRow ind d] ∧
    (limitRow ind d).offset = none ∧
    (limitRow ind d).length = none ∧
    (limitRow ind d).hex = "..." ∧
    (0 < d → (limitRow ind d).text = "// --limit-bytes reached, stepping out.") ∧
    (d = 0 → (limitRow ind d).text = "// --limit-bytes reached, ending.") ∧
    normalize_limit_bytes 0 = USIZE_MAX := by
  refine ⟨?_, rfl, rfl, rfl, ?_, ?_, rfl⟩
  · rw [inspect_go, if_neg (by omega), if_pos hlim]
  · intro hd
    simp [limitRow, hd]
  · intro hd
    simp [limitRow, hd]

theorem c2_limit_reached_witness :
    ((0 : Nat) < 1) ∧ ((0 : Nat) < (complete_value_range ⟨4, 0, 1, false, none, none, "7", 0⟩).stop) ∧
    ((1 : Nat) ≤ (complete_value_range ⟨4, 0, 1, false, none, none, "7", 0⟩).start - 0) ∧
    inspect_go ⟨[224, 1, 0, 234, 33, 7], 0, 1⟩ 0 "" 0
      [IonTree.node IonType.integer ⟨4, 0, 1, false, none, none, "7", 0⟩ []] = [limitRow "" 0] := by
  refine ⟨by decide, by decide, by decide, ?_⟩
  exact (c2_limit_reached ⟨[224, 1, 0, 234, 33, 7], 0, 1⟩ 0 "" 0 IonType.integer
    ⟨4, 0, 1, false, none, none, "7", 0⟩ [] [] (by decide) (by decide) (by decide)).1

/-- C10: the per-level skipped-byte counter is only ever reported when a
displayed value follows at the same level.  If every value at a level falls
entirely within the skip window, `inspect_level`'s loop emits nothing at all
(the accumulated count is discarded); and if the limit comment fires before
any value at the level is displayed, the only row emitted is the limit
comment — no "Skipped N bytes" row is ever produced for those bytes. -/
theorem c10_skip_counter_discarded (insp : IonInspector) (d : Nat) (ind : String) :
    (∀ (skipped : Nat) (vs : List IonTree),
      (∀ v ∈ vs, tree_end v ≤ insp.bytes_to_skip) →
      inspect_go insp d ind skipped vs = []) ∧
    (∀ (skipped : Nat) (pre : List IonTree) (v : IonTree) (rest : List IonTree),
      (∀ u ∈ pre, tree_end u ≤ insp.bytes_to_skip) →
      insp.bytes_to_skip < tree_end v →
      insp.limit_bytes ≤ tree_start v - insp.bytes_to_skip →
      inspect_go insp d ind skipped (pre ++ v :: rest) = [limitRow ind d]) := by
  constructor
  · intro skipped vs
    induction vs generalizing skipped with
    | nil => intro _; rw [inspect_go]
    | cons v vs ih =>
      intro h
      rcases v with ⟨t, m, c⟩
      rw [inspect_go, if_pos]
      · exact ih _ (fun u hu => h u (List.mem_cons_of_mem _ hu))
      · exact h _ (List.mem_cons_self _ _)
  · intro skipped pre v rest
    induction pre generalizing skipped with
    | nil =>
      intro _ hv hlim
      rcases v with ⟨t, m, c⟩
      rw [tree_end_node] at hv
      rw [tree_start_node] at hlim
      rw [List.nil_append, inspect_go, complete_value_range_stop, complete_value_range_start,
        if_neg (by omega), if_pos hlim]
    | cons u pre ih =>
      intro h hv hlim
      rcases u with ⟨t, m, c⟩
      rw [List.cons_append, inspect_go, if_pos]
      · exact ih _ (fun w hw => h w (List.mem_cons_of_mem _ hw)) hv hlim
      · exact h _ (List.mem_cons_self _ _)

theorem c10_skip_counter_discarded_witness :
    (tree_end (IonTree.node IonType.integer ⟨4, 0, 1, false, none, none, "7", 0⟩ []) ≤ 6) ∧
    inspect_go ⟨[224, 1, 0, 234, 33, 7], 6, USIZE_MAX⟩ 0 "" 0
      [IonTree.node IonType.integer ⟨4, 0, 1, false, none, none, "7", 0⟩ []] = [] := by
  refine ⟨by decide, ?_⟩
  exact (c10_skip_counter_discarded ⟨[224, 1, 0, 234, 33, 7], 6, USIZE_MAX⟩ 0 "").1 0
    [IonTree.node IonType.integer ⟨4, 0, 1, false, none, none, "7", 0⟩ []]
    (by intro v hv; simp at hv; subst hv; decide)

theorem string_append_empty (s : String) : s ++ "" = s := by
  apply string_eq_of_data
  rw [string_data_append]
  exact List.append_nil _

/-- C5: a rendered non-null container produces an opening row whose hex is
the header bytes only and whose text is the opening delimiter for the
container type (`[`, `(` or the struct brace), then the recursion one level
deeper over its children, then a closing row at the pre-recursion
indentation carrying the matching closing delimiter with no hex payload and
no offset or length. -/
theorem c5_container_rendering (insp : IonInspector) (d : Nat) (ind : String) (skipped : Nat)
    (t : IonType) (m : ValueMeta) (children rest : List IonTree)
    (hskip : insp.bytes_to_skip < (complete_value_range m).stop)
    (hlim : (complete_value_range m).start - insp.bytes_to_skip < insp.limit_bytes)
    (hc : t.is_container = true)
    (hn : m.is_null = false) :
    inspect_go insp d ind skipped (IonTree.node t m children :: rest) =
      (if 0 < skipped then [skipRow ind d skipped] else [])
        ++ write_field_if_present insp.data d ind m
        ++ write_annotations_if_present insp.data d ind m
        ++ [⟨RowKind.value, d, some m.header_offset,
            some (TYPE_DESCRIPTOR_SIZE + m.header_length + m.value_length), ind,
            to_hex (raw_header_bytes insp.data m), opening_delimiter_for t⟩]
        ++ inspect_level insp (d + 1) ind children
        ++ [⟨RowKind.closing, d, none, none, ind, "", closing_delimiter_for t⟩]
        ++ inspect_go insp d ind 0 rest ∧
    (t = IonType.list → opening_delimiter_for t = "[" ∧ closing_delimiter_for t = "]") ∧
    (t = IonType.sexpression → opening_delimiter_for t = "(" ∧ closing_delimiter_for t = ")") ∧
    (t = IonType.struct → opening_delimiter_for t = "\x7b" ∧ closing_delimiter_for t = "\x7d") := by
  refine ⟨?_, ?_, ?_, ?_⟩
  · rw [inspect_go, if_neg (by omega), if_neg (by omega), if_pos hc]
    have hwv : write_value insp.data d ind t m
        = ⟨RowKind.value, d, some m.header_offset,
            some (TYPE_DESCRIPTOR_SIZE + m.header_length + m.value_length), ind,
            to_hex (raw_header_bytes insp.data m), opening_delimiter_for t⟩ := by
      rw [write_value, format_value]
      rw [if_neg (by simp [hc]), string_append_empty]
      rw [if_neg (by simp [hn]), if_pos hc]
    have hcl : closingRow ind d t
        = ⟨RowKind.closing, d, none, none, ind, "", closing_delimiter_for t⟩ := rfl
    have hlvl : inspect_go insp (d + 1) (increase_indentation (d + 1) ind) 0 children
        = inspect_level insp (d + 1) ind children := rfl
    rw [hwv, hcl, hlvl]
    simp [List.append_assoc]
  · intro ht; subst ht; exact ⟨rfl, rfl⟩
  · intro ht; subst ht; exact ⟨rfl, rfl⟩
  · intro ht; subst ht; exact ⟨rfl, rfl⟩

theorem c5_container_rendering_witness :
    ((0 : Nat) < (complete_value_range ⟨4, 0, 2, false, none, none, "", 0⟩).stop) ∧
    ((complete_value_range ⟨4, 0, 2, false, none, none, "", 0⟩).start - 0 < USIZE_MAX) ∧
    (IonType.list = IonType.list →
      opening_delimiter_for IonType.list = "[" ∧ closing_delimiter_for IonType.list = "]") := by
  refine ⟨by decide, by decide, ?_⟩
  exact (c5_container_rendering ⟨[224, 1, 0, 234, 178, 33, 1], 0, USIZE_MAX⟩ 0 "" 0 IonType.list
    ⟨4, 0, 2, false, none, none, "", 0⟩
    [IonTree.node IonType.integer ⟨5, 0, 1, false, none, none, "1", 0⟩ []] []
    (by decide) (by decide) rfl rfl).2.1

/-- The input of the C4 counterexample: a top-level list `[[]]` whose inner
empty list is rendered at depth `1`. -/
def c4_insp : IonInspector := ⟨[224, 1, 0, 234, 177, 176], 0, USIZE_MAX⟩

/-- Metadata of the outer list of the C4 counterexample. -/
def c4_outer : ValueMeta := ⟨4, 0, 1, false, none, none, "", 0⟩

/-- Metadata of the inner (nested, depth 1) empty list of the C4
counterexample. -/
def c4_inner : ValueMeta := ⟨5, 0, 0, false, none, none, "", 0⟩

/-- The decoded forest of the C4 counterexample. -/
def c4_forest : List IonTree :=
  [IonTree.node IonType.list c4_outer [IonTree.node IonType.list c4_inner []]]

theorem c4_run_rows : inspect c4_insp c4_forest =
    [write_value c4_insp.data 0 "" IonType.list c4_outer,
     write_value c4_insp.data 1 "  " IonType.list c4_inner,
     closingRow "  " 1 IonType.list,
     closingRow "" 0 IonType.list] := by
  have h1 : ("" ++ "  " : String) = "  " := rfl
  simp [inspect, inspect_level, inspect_go, increase_indentation, c4_insp, c4_forest,
    c4_outer, c4_inner, complete_value_range, first_value_byte_offset, value_end, USIZE_MAX,
    write_field_if_present, write_annotations_if_present, IonType.is_container,
    LEVEL_INDENTATION, h1]

theorem c4_counterexample :
    ¬ (∀ r ∈ inspect c4_insp c4_forest,
        r.kind = RowKind.value → 0 < r.depth → r.text.data.getLast? = some ',') := by
  intro h
  have hmem : write_value c4_insp.data 1 "  " IonType.list c4_inner ∈ inspect c4_insp c4_forest := by
    rw [c4_run_rows]
    simp
  have htext := h _ hmem rfl (by decide)
  have hval : (write_value c4_insp.data 1 "  " IonType.list c4_inner).text = "[" := by decide
  rw [hval] at htext
  exact absurd htext (by decide)

/-- C4 (amended): a trailing comma is appended to the rendered text of every
null or scalar value at depth greater than `0` (including the last sibling
of a container, since the comma does not depend on position), it is never
appended at depth `0`, and it is never appended to the opening delimiter of
a non-null container — `format_value` returns for containers before the
comma logic runs. -/
theorem c4_trailing_separator (d : Nat) (t : IonType) (m : ValueMeta) :
    (0 < d → (m.is_null = true ∨ t.is_container = false) →
      format_value d t m = trim_end m.scalar_text ++ "," ++ scalar_comment_of t m) ∧
    (d = 0 → (m.is_null = true ∨ t.is_container = false) →
      format_value d t m = trim_end m.scalar_text ++ scalar_comment_of t m) ∧
    (m.is_null = false → t.is_container = true →
      format_value d t m = opening_delimiter_for t) := by
  refine ⟨?_, ?_, ?_⟩
  · intro hd hcase
    rw [format_value]
    by_cases hnull : m.is_null
    · rw [if_pos hnull, if_pos hd]
    · rcases hcase with h | h
      · exact absurd h (by simp [Bool.not_eq_true] at hnull; simp [hnull])
      · rw [if_neg hnull, if_neg (by simp [h]), if_pos hd]
  · intro hd hcase
    subst hd
    rw [format_value]
    by_cases hnull : m.is_null
    · rw [if_pos hnull, if_neg (by omega), string_append_empty]
    · rcases hcase with h | h
      · exact absurd h (by simp [Bool.not_eq_true] at hnull; simp [hnull])
      · rw [if_neg hnull, if_neg (by simp [h]), if_neg (by omega), string_append_empty]
  · intro hn hc
    rw [format_value, if_neg (by simp [hn]), if_pos hc]

theorem c4_trailing_separator_witness :
    ((0 : Nat) < 1) ∧
    format_value 1 IonType.integer ⟨4, 0, 1, false, none, none, "7", 0⟩
      = trim_end "7" ++ "," ++ scalar_comment_of IonType.integer ⟨4, 0, 1, false, none, none, "7", 0⟩ := by
  exact ⟨by decide,
    (c4_trailing_separator 1 IonType.integer ⟨4, 0, 1, false, none, none, "7", 0⟩).1
      (by decide) (Or.inr rfl)⟩

/-- C9: an input whose first four bytes are exactly the Ion version-marker
signature `E0 01 00 EA` invokes the inspection core (header writing plus
`inspect_level` on the decoded stream); any other input — including inputs
shorter than four bytes — makes the run fail with an error that names the
offending input, without invoking the core. -/
theorem c9_signature_check (name : String) (ion_data : List Nat) (decoded : List IonTree)
    (s l : Nat) :
    (∀ rest : List Nat, ion_data = 0xE0 :: 0x01 :: 0x00 :: 0xEA :: rest →
      inspect_file name ion_data decoded s l
        = Except.ok (write_header_lines, inspect ⟨ion_data, s, l⟩ decoded)) ∧
    ((¬ ∃ rest : List Nat, ion_data = 0xE0 :: 0x01 :: 0x00 :: 0xEA :: rest) →
      inspect_file name ion_data decoded s l
        = Except.error ("Input file \x27" ++ name ++ "\x27 does not appear to be binary Ion.")) ∧
    (ion_data.length < 4 →
      inspect_file name ion_data decoded s l
        = Except.error ("Input file \x27" ++ name ++ "\x27 does not appear to be binary Ion.")) ∧
    (∃ pre post : String,
      ("Input file \x27" ++ name ++ "\x27 does not appear to be binary Ion.")
        = pre ++ name ++ post) := by
  have herr : (¬ ∃ rest : List Nat, ion_data = 0xE0 :: 0x01 :: 0x00 :: 0xEA :: rest) →
      inspect_file name ion_data decoded s l
        = Except.error ("Input file \x27" ++ name ++ "\x27 does not appear to be binary Ion.") := by
    intro hno
    rw [inspect_file.eq_def]
    split
    · rename_i rest
      exact absurd ⟨rest, rfl⟩ hno
    · rfl
  refine ⟨?_, herr, ?_, ?_⟩
  · intro rest hdata
    subst hdata
    rw [inspect_file]
  · intro hshort
    apply herr
    rintro ⟨rest, hdata⟩
    rw [hdata] at hshort
    simp at hshort
    omega
  · exact ⟨"Input file \x27", "\x27 does not appear to be binary Ion.", by
      rw [String.append_assoc]⟩

theorem c9_signature_check_witness :
    (([224, 1, 0, 234, 33, 7] : List Nat) = 0xE0 :: 0x01 :: 0x00 :: 0xEA :: [33, 7]) ∧
    inspect_file "demo.10n" [224, 1, 0, 234, 33, 7] [] 0 0
      = Except.ok (write_header_lines, inspect ⟨[224, 1, 0, 234, 33, 7], 0, 0⟩ []) ∧
    (([1, 2] : List Nat).length < 4) ∧
    inspect_file "bad.10n" [1, 2] [] 0 0
      = Except.error ("Input file \x27bad.10n\x27 does not appear to be binary Ion.") := by
  refine ⟨by decide, ?_, by decide, ?_⟩
  · exact (c9_signature_check "demo.10n" [224, 1, 0, 234, 33, 7] [] 0 0).1 [33, 7] (by decide)
  · exact (c9_signature_check "bad.10n" [1, 2] [] 0 0).2.2.1 (by decide)

theorem all_values_cons (t : IonType) (m : ValueMeta) (c rest : List IonTree) :
    all_values (IonTree.node t m c :: rest)
      = IonTree.node t m c :: (all_values c ++ all_values rest) := by
  rw [all_values]

theorem all_values_bounds :
    ∀ (lo hi : Nat) (vs : List IonTree), forest_wf lo hi vs →
      ∀ u ∈ all_values vs,
        lo ≤ tree_start u ∧ tree_end u ≤ hi ∧ tree_start u ≤ u.meta.header_offset ∧
        u.meta.header_offset < tree_end u := by
  apply forest_wf.induct
    (motive := fun lo hi vs => forest_wf lo hi vs →
      ∀ u ∈ all_values vs,
        lo ≤ tree_start u ∧ tree_end u ≤ hi ∧ tree_start u ≤ u.meta.header_offset ∧
        u.meta.header_offset < tree_end u)
  · intro lo hi _ u hu
    rw [all_values] at hu
    simp at hu
  · intro lo hi t m children rest ih_c ih_r hwf u hu
    rw [forest_wf] at hwf
    obtain ⟨h1, h2, h3, _h4, hwc, hwr⟩ := hwf
    rw [all_values_cons] at hu
    rcases List.mem_cons.mp hu with hu | hu
    · subst hu
      refine ⟨h1, ?_, h2, ?_⟩
      · rw [tree_end_node]; exact h3
      · rw [tree_end_node, value_end]
        show m.header_offset < m.header_offset + 1 + m.header_length + m.value_length
        omega
    · rcases List.mem_append.mp hu with hu | hu
      · obtain ⟨hc1, hc2, hc3, hc4⟩ := ih_c hwc u hu
        have hlo : lo ≤ m.header_offset + 1 + m.header_length := by omega
        exact ⟨by omega, by omega, hc3, hc4⟩
      · obtain ⟨hr1, hr2, hr3, hr4⟩ := ih_r hwr u hu
        have hlt : lo ≤ value_end m := by
          rw [value_end]; omega
        exact ⟨by omega, hr2, hr3, hr4⟩

theorem all_values_header_offset_inj :
    ∀ (lo hi : Nat) (vs : List IonTree), forest_wf lo hi vs →
      ∀ u ∈ all_values vs, ∀ w ∈ all_values vs,
        u.meta.header_offset = w.meta.header_offset → u = w := by
  apply forest_wf.induct
    (motive := fun lo hi vs => forest_wf lo hi vs →
      ∀ u ∈ all_values vs, ∀ w ∈ all_values vs,
        u.meta.header_offset = w.meta.header_offset → u = w)
  · intro lo hi _ u hu
    rw [all_values] at hu
    simp at hu
  · intro lo hi t m children rest ih_c ih_r hwf u hu w hw heq
    rw [forest_wf] at hwf
    obtain ⟨h1, h2, h3, _h4, hwc, hwr⟩ := hwf
    have hcb := all_values_bounds _ _ _ hwc
    have hrb := all_values_bounds _ _ _ hwr
    have hhead : (IonTree.node t m children).meta.header_offset = m.header_offset := rfl
    have hheadend : tree_end (IonTree.node t m children) = value_end m := rfl
    rw [all_values_cons] at hu hw
    rcases List.mem_cons.mp hu with hu | hu <;> rcases List.mem_cons.mp hw with hw | hw
    · rw [hu, hw]
    · subst hu
      rcases List.mem_append.mp hw with hw | hw
      · obtain ⟨hb1, hb2, hb3, _⟩ := hcb w hw
        rw [hhead] at heq
        rw [value_end] at *
        omega
      · obtain ⟨hb1, hb2, hb3, hb4⟩ := hrb w hw
        rw [hhead] at heq
        rw [value_end] at *
        omega
    · subst hw
      rcases List.mem_append.mp hu with hu | hu
      · obtain ⟨hb1, hb2, hb3, _⟩ := hcb u hu
        rw [hhead] at heq
        rw [value_end] at *
        omega
      · obtain ⟨hb1, hb2, hb3, hb4⟩ := hrb u hu
        rw [hhead] at heq
        rw [value_end] at *
        omega
    · rcases List.mem_append.mp hu with hu | hu <;> rcases List.mem_append.mp hw with hw | hw
      · exact ih_c hwc u hu w hw heq
      · obtain ⟨hu1, hu2, hu3, hu4⟩ := hcb u hu
        obtain ⟨hw1, hw2, hw3, hw4⟩ := hrb w hw
        omega
      · obtain ⟨hu1, hu2, hu3, hu4⟩ := hrb u hu
        obtain ⟨hw1, hw2, hw3, hw4⟩ := hcb w hw
        omega
      · exact ih_r hwr u hu w hw heq

theorem write_value_kind (buf : List Nat) (d : Nat) (ind : String) (t : IonType) (m : ValueMeta) :
    (write_value buf d ind t m).kind = RowKind.value := rfl

theorem inspect_go_value_rows_sound (insp : IonInspector) :
    ∀ (d : Nat) (ind : String) (skipped : Nat) (vs : List IonTree),
      ∀ r ∈ inspect_go insp d ind skipped vs, r.kind = RowKind.value →
        ∃ u ∈ all_values vs, insp.bytes_to_skip < tree_end u ∧
          r.offset = some u.meta.header_offset ∧
          r.length = some (TYPE_DESCRIPTOR_SIZE + u.meta.header_length + u.meta.value_length) := by
  apply inspect_go.induct insp
    (motive := fun d ind skipped vs =>
      ∀ r ∈ inspect_go insp d ind skipped vs, r.kind = RowKind.value →
        ∃ u ∈ all_values vs, insp.bytes_to_skip < tree_end u ∧
          r.offset = some u.meta.header_offset ∧
          r.length = some (TYPE_DESCRIPTOR_SIZE + u.meta.header_length + u.meta.value_length))
  · intro d ind skipped r hr
    rw [inspect_go] at hr
    simp at hr
  · intro d ind skipped t m children rest hskip ih r hr hk
    rw [inspect_go, if_pos hskip] at hr
    obtain ⟨u, hu, h⟩ := ih r hr hk
    exact ⟨u, by rw [all_values_cons]; simp [hu], h⟩
  · intro d ind skipped t m children rest hskip hlim r hr hk
    rw [inspect_go, if_neg hskip, if_pos hlim] at hr
    have : r = limitRow ind d := by simpa using hr
    subst this
    simp [limitRow] at hk
  · intro d ind skipped t m children rest hskip hlim ih_c ih_r r hr hk
    rcases inspect_go_display_mem hskip hlim hr with
      ⟨_, hr⟩ | hr | hr | hr | ⟨hc, hr | hr⟩ | hr
    · subst hr; simp [skipRow] at hk
    · have h := write_field_if_present_mem insp.data d ind m r hr
      rw [h.2.2] at hk
      simp at hk
    · have h := write_annotations_if_present_mem insp.data d ind m r hr
      rw [h.2.2] at hk
      simp at hk
    · subst hr
      refine ⟨IonTree.node t m children, ?_, ?_, rfl, rfl⟩
      · rw [all_values_cons]; simp
      · rw [tree_end_node]
        rw [complete_value_range_stop] at hskip
        omega
    · obtain ⟨u, hu, h⟩ := ih_c r hr hk
      refine ⟨u, ?_, h⟩
      rw [all_values_cons]
      simp
      right; left; exact hu
    · subst hr; simp [closingRow] at hk
    · obtain ⟨u, hu, h⟩ := ih_r r hr hk
      refine ⟨u, ?_, h⟩
      rw [all_values_cons]
      simp
      right; right; exact hu

theorem inspect_go_value_rows_complete (insp : IonInspector)
    (hunb : insp.limit_bytes = USIZE_MAX) :
    ∀ (d : Nat) (ind : String) (skipped : Nat) (vs : List IonTree),
      ∀ (lo hi : Nat), forest_wf lo hi vs → hi ≤ USIZE_MAX →
      ∀ u ∈ all_values vs, insp.bytes_to_skip < tree_end u →
        ∃ r ∈ inspect_go insp d ind skipped vs,
          r.kind = RowKind.value ∧ r.offset = some u.meta.header_offset := by
  apply inspect_go.induct insp
    (motive := fun d ind skipped vs =>
      ∀ (lo hi : Nat), forest_wf lo hi vs → hi ≤ USIZE_MAX →
      ∀ u ∈ all_values vs, insp.bytes_to_skip < tree_end u →
        ∃ r ∈ inspect_go insp d ind skipped vs,
          r.kind = RowKind.value ∧ r.offset = some u.meta.header_offset)
  · intro d ind skipped lo hi _ _ u hu
    rw [all_values] at hu
    simp at hu
  · intro d ind skipped t m children rest hskip ih lo hi hwf hhi u hu hue
    rw [forest_wf] at hwf
    obtain ⟨h1, h2, h3, _h4, hwc, hwr⟩ := hwf
    rw [complete_value_range_stop] at hskip
    rw [all_values_cons] at hu
    rcases List.mem_cons.mp hu with hu | hu
    · subst hu
      rw [tree_end_node] at hue
      omega
    · rcases List.mem_append.mp hu with hu | hu
      · have hb := (all_values_bounds _ _ _ hwc u hu).2.1
        omega
      · obtain ⟨r, hr, hk⟩ := ih (value_end m) hi hwr hhi u hu hue
        refine ⟨r, ?_, hk⟩
        rw [inspect_go, if_pos (by rw [complete_value_range_stop]; exact hskip)]
        exact hr
  · intro d ind skipped t m children rest hskip hlim lo hi hwf hhi u hu hue
    exfalso
    rw [forest_wf] at hwf
    obtain ⟨h1, h2, h3, _h4, hwc, hwr⟩ := hwf
    rw [complete_value_range_start, hunb] at hlim
    rw [value_end] at h3
    have hmax : 0 < USIZE_MAX := by decide
    omega
  · intro d ind skipped t m children rest hskip hlim ih_c ih_r lo hi hwf hhi u hu hue
    rw [forest_wf] at hwf
    obtain ⟨h1, h2, h3, _h4, hwc, hwr⟩ := hwf
    have hmem : ∀ r2 : Row, (r2 ∈ write_field_if_present insp.data d ind m
          ∨ r2 ∈ write_annotations_if_present insp.data d ind m
          ∨ r2 = write_value insp.data d ind t m
          ∨ (t.is_container = true ∧
              (r2 ∈ inspect_go insp (d + 1) (increase_indentation (d + 1) ind) 0 children
                ∨ r2 = closingRow ind d t))
          ∨ r2 ∈ inspect_go insp d ind 0 rest) →
        r2 ∈ inspect_go insp d ind skipped (IonTree.node t m children :: rest) := by
      intro r2 hcase
      rw [inspect_go, if_neg hskip, if_neg hlim]
      simp only [List.mem_append]
      rcases hcase with h | h | h | ⟨hc, h⟩ | h
      · exact Or.inl (Or.inl (Or.inl (Or.inl (Or.inr h))))
      · exact Or.inl (Or.inl (Or.inl (Or.inr h)))
      · exact Or.inl (Or.inl (Or.inr (by simp [h])))
      · refine Or.inl (Or.inr ?_)
        rw [if_pos hc]
        rcases h with h | h
        · exact List.mem_append.mpr (Or.inl h)
        · exact List.mem_append.mpr (Or.inr (by simp [h]))
      · exact Or.inr h
    rw [all_values_cons] at hu
    rcases List.mem_cons.mp hu with hu | hu
    · subst hu
      refine ⟨write_value insp.data d ind t m, ?_, rfl, rfl⟩
      exact hmem _ (Or.inr (Or.inr (Or.inl rfl)))
    · rcases List.mem_append.mp hu with hu | hu
      · have hc : t.is_container = true := by
          by_cases hcb : t.is_container
          · exact hcb
          · rw [_h4 (by simpa using hcb)] at hu
            rw [all_values] at hu
            simp at hu
        obtain ⟨r, hr, hk⟩ := ih_c _ _ hwc (by omega) u hu hue
        exact ⟨r, hmem r (Or.inr (Or.inr (Or.inr (Or.inl ⟨hc, Or.inl hr⟩)))), hk⟩
      · obtain ⟨r, hr, hk⟩ := ih_r (value_end m) hi hwr hhi u hu hue
        exact ⟨r, hmem r (Or.inr (Or.inr (Or.inr (Or.inr hr)))), hk⟩

theorem complete_value_range_len (m : ValueMeta) :
    (complete_value_range m).len = value_end m - first_value_byte_offset m := rfl

theorem inspect_go_skip_accumulate (insp : IonInspector) (d : Nat) (ind : String) :
    ∀ (vs : List IonTree) (skipped : Nat),
      inspect_go insp d ind skipped vs
        = inspect_go insp d ind (skipped + skip_run_len insp.bytes_to_skip vs)
            (drop_suppressed insp.bytes_to_skip vs) := by
  intro vs
  induction vs with
  | nil =>
    intro skipped
    rw [skip_run_len, drop_suppressed, Nat.add_zero]
  | cons v rest ih =>
    intro skipped
    rcases v with ⟨t, m, c⟩
    by_cases hs : tree_end (IonTree.node t m c) ≤ insp.bytes_to_skip
    · rw [skip_run_len, if_pos hs, drop_suppressed, if_pos hs]
      have hs2 : value_end m ≤ insp.bytes_to_skip := hs
      rw [inspect_go, complete_value_range_stop, if_pos hs2, complete_value_range_len]
      rw [ih]
      congr 1
      rw [tree_end_node, tree_start_node]
      omega
    · rw [skip_run_len, if_neg hs, drop_suppressed, if_neg hs, Nat.add_zero]

/-- The rows the loop body of `inspect_level` emits for one displayed value:
its field-id and annotations rows if present, its value row, and for a
container the rows of the nested level followed by the closing-delimiter
row. -/
def display_rows (insp : IonInspector) (d : Nat) (ind : String) : IonTree → List Row
  | IonTree.node t m children =>
    write_field_if_present insp.data d ind m
      ++ write_annotations_if_present insp.data d ind m
      ++ [write_value insp.data d ind t m]
      ++ (if t.is_container then
            inspect_go insp (d + 1) (increase_indentation (d + 1) ind) 0 children
              ++ [closingRow ind d t]
          else [])

theorem inspect_go_display_eq (insp : IonInspector) (d : Nat) (ind : String) (skipped : Nat)
    (t : IonType) (m : ValueMeta) (children rest : List IonTree)
    (hskip : ¬ (complete_value_range m).stop ≤ insp.bytes_to_skip)
    (hlim : ¬ insp.limit_bytes ≤ (complete_value_range m).start - insp.bytes_to_skip) :
    inspect_go insp d ind skipped (IonTree.node t m children :: rest)
      = (if 0 < skipped then [skipRow ind d skipped] else [])
        ++ display_rows insp d ind (IonTree.node t m children)
        ++ inspect_go insp d ind 0 rest := by
  rw [inspect_go, if_neg hskip, if_neg hlim, display_rows]
  simp [List.append_assoc]

theorem drop_suppressed_head_not_suppressed (k : Nat) :
    ∀ (ws : List IonTree) (v : IonTree) (rest : List IonTree),
      drop_suppressed k ws = v :: rest → ¬ tree_end v ≤ k := by
  intro ws
  induction ws with
  | nil => intro v rest h; rw [drop_suppressed] at h; exact absurd h (by simp)
  | cons w ws ih =>
    intro v rest h
    rw [drop_suppressed] at h
    by_cases hw : tree_end w ≤ k
    · rw [if_pos hw] at h
      exact ih v rest h
    · rw [if_neg hw] at h
      injection h with h1 h2
      subst h1
      exact hw

/-- C1: in a run whose byte limit is unbounded (`usize::MAX`, the
normalization of `--limit-bytes 0`), with `bytes_to_skip = k`: every value
row in the output comes from a stream value whose complete range ends past
`k` (so every emitted value is shown whole); every stream value ending past
`k` is emitted; a stream value ending at or before `k` gets no value row;
the per-level loop accumulates the complete-range lengths of a suppressed
sibling prefix into its counter; and when a displayed value follows, the
accumulated total is flushed as one "Skipped N bytes" comment row emitted
before that value's rows, with the counter reset to zero for the rest of
the level. -/
theorem c1_skip_window (insp : IonInspector) (vs : List IonTree) (lo hi : Nat)
    (hwf : forest_wf lo hi vs)
    (hunb : insp.limit_bytes = USIZE_MAX)
    (hhi : hi ≤ USIZE_MAX) :
    (∀ r ∈ inspect insp vs, r.kind = RowKind.value →
      ∃ u ∈ all_values vs, insp.bytes_to_skip < tree_end u ∧
        r.offset = some u.meta.header_offset ∧
        r.length = some (TYPE_DESCRIPTOR_SIZE + u.meta.header_length + u.meta.value_length)) ∧
    (∀ u ∈ all_values vs, insp.bytes_to_skip < tree_end u →
      ∃ r ∈ inspect insp vs, r.kind = RowKind.value ∧ r.offset = some u.meta.header_offset) ∧
    (∀ u ∈ all_values vs, tree_end u ≤ insp.bytes_to_skip →
      ∀ r ∈ inspect insp vs, r.kind = RowKind.value → r.offset ≠ some u.meta.header_offset) ∧
    (∀ (d : Nat) (ind : String) (ws : List IonTree) (skipped : Nat),
      inspect_go insp d ind skipped ws
        = inspect_go insp d ind (skipped + skip_run_len insp.bytes_to_skip ws)
            (drop_suppressed insp.bytes_to_skip ws)) ∧
    (∀ (d : Nat) (ind : String) (ws : List IonTree) (v : IonTree) (rest : List IonTree),
      drop_suppressed insp.bytes_to_skip ws = v :: rest →
      (complete_value_range v.meta).start - insp.bytes_to_skip < insp.limit_bytes →
      inspect_go insp d ind 0 ws
        = (if 0 < skip_run_len insp.bytes_to_skip ws
            then [skipRow ind d (skip_run_len insp.bytes_to_skip ws)] else [])
          ++ display_rows insp d ind v
          ++ inspect_go insp d ind 0 rest) := by
  refine ⟨?_, ?_, ?_, ?_, ?_⟩
  · intro r hr hk
    rw [inspect, inspect_level] at hr
    exact inspect_go_value_rows_sound insp 0 (increase_indentation 0 "") 0 vs r hr hk
  · intro u hu hue
    rw [inspect, inspect_level]
    exact inspect_go_value_rows_complete insp hunb 0 (increase_indentation 0 "") 0 vs
      lo hi hwf hhi u hu hue
  · intro u hu hue r hr hk heq
    rw [inspect, inspect_level] at hr
    obtain ⟨w, hw, hwe, hwo, _⟩ :=
      inspect_go_value_rows_sound insp 0 (increase_indentation 0 "") 0 vs r hr hk
    have hofs : u.meta.header_offset = w.meta.header_offset := by
      rw [heq] at hwo
      exact Option.some.injEq _ _ ▸ hwo
    have huw : u = w := all_values_header_offset_inj lo hi vs hwf u hu w hw hofs
    rw [huw] at hue
    omega
  · intro d ind ws skipped
    exact inspect_go_skip_accumulate insp d ind ws skipped
  · intro d ind ws v rest hdrop hlim2
    have hns := drop_suppressed_head_not_suppressed insp.bytes_to_skip ws v rest hdrop
    rw [inspect_go_skip_accumulate insp d ind ws 0, Nat.zero_add, hdrop]
    rcases v with ⟨t, m, c⟩
    have hlim3 : (complete_value_range m).start - insp.bytes_to_skip < insp.limit_bytes := hlim2
    exact inspect_go_display_eq insp d ind _ t m c rest
      (by rw [complete_value_range_stop]; rw [tree_end_node] at hns; exact hns)
      (by omega)

theorem c1_skip_window_witness :
    forest_wf 4 8
      [IonTree.node IonType.integer ⟨4, 0, 1, false, none, none, "1", 0⟩ [],
       IonTree.node IonType.integer ⟨6, 0, 1, false, none, none, "2", 0⟩ []] ∧
    ((8 : Nat) ≤ USIZE_MAX) ∧
    ((6 : Nat) < tree_end (IonTree.node IonType.integer ⟨6, 0, 1, false, none, none, "2", 0⟩ [])) ∧
    ∃ r ∈ inspect ⟨[224, 1, 0, 234, 33, 1, 33, 2], 6, USIZE_MAX⟩
        [IonTree.node IonType.integer ⟨4, 0, 1, false, none, none, "1", 0⟩ [],
         IonTree.node IonType.integer ⟨6, 0, 1, false, none, none, "2", 0⟩ []],
      r.kind = RowKind.value ∧ r.offset = some 6 := by
  have hwf : forest_wf 4 8
      [IonTree.node IonType.integer ⟨4, 0, 1, false, none, none, "1", 0⟩ [],
       IonTree.node IonType.integer ⟨6, 0, 1, false, none, none, "2", 0⟩ []] := by
    simp [forest_wf, first_value_byte_offset, value_end]
  refine ⟨hwf, by decide, by decide, ?_⟩
  exact (c1_skip_window ⟨[224, 1, 0, 234, 33, 1, 33, 2], 6, USIZE_MAX⟩ _ 4 8 hwf rfl
    (by decide)).2.1 (IonTree.node IonType.integer ⟨6, 0, 1, false, none, none, "2", 0⟩ [])
    (by rw [all_values_cons]; simp [all_values]) (by decide)

theorem inspect_go_beyond_limit (insp : IonInspector) (d : Nat) (ind : String) (skipped : Nat)
    (vs : List IonTree) (lo hi : Nat)
    (hwf : forest_wf lo hi vs)
    (hlo : insp.bytes_to_skip + insp.limit_bytes ≤ lo) :
    inspect_go insp d ind skipped vs = [] ∨ inspect_go insp d ind skipped vs = [limitRow ind d] := by
  cases vs with
  | nil => left; rw [inspect_go]
  | cons v rest =>
    rcases v with ⟨t, m, c⟩
    rw [forest_wf] at hwf
    obtain ⟨h1, h2, _, _, _, _⟩ := hwf
    right
    rw [inspect_go, complete_value_range_stop, complete_value_range_start,
      if_neg (by rw [value_end]; omega), if_pos (by omega)]

theorem tail_rows_ok_append_no_limit :
    ∀ (A B : List Row), (∀ r ∈ A, r.kind ≠ RowKind.limit_comment) → tail_rows_ok B →
      tail_rows_ok (A ++ B) := by
  intro A
  induction A with
  | nil => intro B _ hB; simpa using hB
  | cons a A ih =>
    intro B hA hB
    rw [List.cons_append, tail_rows_ok, if_neg (hA a (List.mem_cons_self _ _))]
    exact ih B (fun r hr => hA r (List.mem_cons_of_mem _ hr)) hB

theorem tail_rows_ok_append_all_after :
    ∀ (A B : List Row), tail_rows_ok A →
      (∀ r ∈ B, r.kind = RowKind.limit_comment ∨ r.kind = RowKind.closing) →
      tail_rows_ok B →
      tail_rows_ok (A ++ B) := by
  intro A
  induction A with
  | nil => intro B _ _ hB2; simpa using hB2
  | cons a A ih =>
    intro B hA hB hB2
    rw [List.cons_append, tail_rows_ok]
    rw [tail_rows_ok] at hA
    by_cases hk : a.kind = RowKind.limit_comment
    · rw [if_pos hk] at hA ⊢
      intro s hs
      rcases List.mem_append.mp hs with hs | hs
      · exact hA s hs
      · exact hB s hs
    · rw [if_neg hk] at hA ⊢
      exact ih B hA hB hB2

theorem inspect_go_row_shapes (insp : IonInspector) :
    ∀ (d : Nat) (ind : String) (skipped : Nat) (vs : List IonTree),
      ∀ r ∈ inspect_go insp d ind skipped vs,
        (r.kind = RowKind.limit_comment → ∃ i d2, r = limitRow i d2) ∧
        (r.kind = RowKind.closing → ∃ i d2 t2, r = closingRow i d2 t2) := by
  apply inspect_go.induct insp
    (motive := fun d ind skipped vs =>
      ∀ r ∈ inspect_go insp d ind skipped vs,
        (r.kind = RowKind.limit_comment → ∃ i d2, r = limitRow i d2) ∧
        (r.kind = RowKind.closing → ∃ i d2 t2, r = closingRow i d2 t2))
  · intro d ind skipped r hr
    rw [inspect_go] at hr
    simp at hr
  · intro d ind skipped t m children rest hskip ih r hr
    rw [inspect_go, if_pos hskip] at hr
    exact ih r hr
  · intro d ind skipped t m children rest hskip hlim r hr
    rw [inspect_go, if_neg hskip, if_pos hlim] at hr
    have : r = limitRow ind d := by simpa using hr
    subst this
    exact ⟨fun _ => ⟨ind, d, rfl⟩, fun h => by simp [limitRow, closingRow] at h⟩
  · intro d ind skipped t m children rest hskip hlim ih_c ih_r r hr
    rcases inspect_go_display_mem hskip hlim hr with
      ⟨_, hr⟩ | hr | hr | hr | ⟨hc, hr | hr⟩ | hr
    · subst hr
      exact ⟨fun h => by simp [skipRow] at h, fun h => by simp [skipRow] at h⟩
    · have h := write_field_if_present_mem insp.data d ind m r hr
      rw [h.2.2]
      exact ⟨fun h2 => by simp at h2, fun h2 => by simp at h2⟩
    · have h := write_annotations_if_present_mem insp.data d ind m r hr
      rw [h.2.2]
      exact ⟨fun h2 => by simp at h2, fun h2 => by simp at h2⟩
    · subst hr
      exact ⟨fun h => by simp [write_value] at h, fun h => by simp [write_value] at h⟩
    · exact ih_c r hr
    · subst hr
      exact ⟨fun h => by simp [closingRow, limitRow] at h, fun _ => ⟨ind, d, t, rfl⟩⟩
    · exact ih_r r hr

theorem tail_rows_ok_singleton_closing (ind : String) (d : Nat) (t : IonType) :
    tail_rows_ok [closingRow ind d t] := by
  rw [tail_rows_ok, if_neg (by simp [closingRow])]
  rw [tail_rows_ok]
  trivial

theorem inspect_go_tail_ok (insp : IonInspector) (hpos : 0 < insp.limit_bytes) :
    ∀ (d : Nat) (ind : String) (skipped : Nat) (vs : List IonTree),
      ∀ (lo hi : Nat), forest_wf lo hi vs →
      tail_rows_ok (inspect_go insp d ind skipped vs) ∧
      (∀ r ∈ inspect_go insp d ind skipped vs, r.kind = RowKind.limit_comment →
        ∃ u ∈ all_values vs, insp.bytes_to_skip + insp.limit_bytes ≤ tree_start u) := by
  apply inspect_go.induct insp
    (motive := fun d ind skipped vs =>
      ∀ (lo hi : Nat), forest_wf lo hi vs →
      tail_rows_ok (inspect_go insp d ind skipped vs) ∧
      (∀ r ∈ inspect_go insp d ind skipped vs, r.kind = RowKind.limit_comment →
        ∃ u ∈ all_values vs, insp.bytes_to_skip + insp.limit_bytes ≤ tree_start u))
  · intro d ind skipped lo hi _
    rw [inspect_go]
    refine ⟨?_, ?_⟩
    · rw [tail_rows_ok]
      trivial
    · intro r hr
      simp at hr
  · intro d ind skipped t m children rest hskip ih lo hi hwf
    rw [forest_wf] at hwf
    rw [inspect_go, if_pos hskip]
    obtain ⟨ht, hex⟩ := ih (value_end m) hi hwf.2.2.2.2.2
    refine ⟨ht, ?_⟩
    intro r hr hk
    obtain ⟨u, hu, h⟩ := hex r hr hk
    exact ⟨u, by rw [all_values_cons]; simp; right; right; exact hu, h⟩
  · intro d ind skipped t m children rest hskip hlim lo hi hwf
    rw [inspect_go, if_neg hskip, if_pos hlim]
    refine ⟨?_, ?_⟩
    · rw [tail_rows_ok, if_pos (by simp [limitRow])]
      intro s hs
      simp at hs
    · intro r hr hk
      refine ⟨IonTree.node t m children, by rw [all_values_cons]; simp, ?_⟩
      rw [tree_start_node]
      rw [complete_value_range_start] at hlim
      omega
  · intro d ind skipped t m children rest hskip hlim ih_c ih_r lo hi hwf
    rw [forest_wf] at hwf
    obtain ⟨h1, h2, h3, h4, hwc, hwr⟩ := hwf
    obtain ⟨htc, hexc⟩ := ih_c (m.header_offset + 1 + m.header_length) (value_end m) hwc
    obtain ⟨htr, hexr⟩ := ih_r (value_end m) hi hwr
    constructor
    · rw [inspect_go, if_neg hskip, if_neg hlim]
      have hflush : ∀ r ∈ (if 0 < skipped then [skipRow ind d skipped] else []),
          r.kind ≠ RowKind.limit_comment := by
        intro r hr
        split at hr
        · have : r = skipRow ind d skipped := by simpa using hr
          subst this
          simp [skipRow]
        · simp at hr
      have hfield : ∀ r ∈ write_field_if_present insp.data d ind m,
          r.kind ≠ RowKind.limit_comment := by
        intro r hr
        rw [(write_field_if_present_mem insp.data d ind m r hr).2.2]
        simp
      have hannot : ∀ r ∈ write_annotations_if_present insp.data d ind m,
          r.kind ≠ RowKind.limit_comment := by
        intro r hr
        rw [(write_annotations_if_present_mem insp.data d ind m r hr).2.2]
        simp
      have hwv : ∀ r ∈ [write_value insp.data d ind t m],
          r.kind ≠ RowKind.limit_comment := by
        intro r hr
        have : r = write_value insp.data d ind t m := by simpa using hr
        subst this
        simp [write_value]
      have hfront : ∀ r ∈ ((if 0 < skipped then [skipRow ind d skipped] else [])
            ++ write_field_if_present insp.data d ind m
            ++ write_annotations_if_present insp.data d ind m
            ++ [write_value insp.data d ind t m]),
          r.kind ≠ RowKind.limit_comment := by
        intro r hr
        simp only [List.mem_append] at hr
        rcases hr with ((hr | hr) | hr) | hr
        · exact hflush r hr
        · exact hfield r hr
        · exact hannot r hr
        · exact hwv r hr
      by_cases hc : t.is_container
      · rw [if_pos hc]
        by_cases hlimc : ∃ r ∈ inspect_go insp (d + 1) (increase_indentation (d + 1) ind) 0
            children, r.kind = RowKind.limit_comment
        · obtain ⟨rl, hrl, hkl⟩ := hlimc
          obtain ⟨u, hu, hustart⟩ := hexc rl hrl hkl
          obtain ⟨hb1, hb2, hb3, hb4⟩ := all_values_bounds _ _ _ hwc u hu
          have hvend : insp.bytes_to_skip + insp.limit_bytes ≤ value_end m := by omega
          have hR := inspect_go_beyond_limit insp d ind 0 rest (value_end m) hi hwr hvend
          have hRkinds : ∀ r ∈ inspect_go insp d ind 0 rest,
              r.kind = RowKind.limit_comment ∨ r.kind = RowKind.closing := by
            intro r hr
            rcases hR with h | h
            · rw [h] at hr; simp at hr
            · rw [h] at hr
              have : r = limitRow ind d := by simpa using hr
              subst this
              left; rfl
          have hRtail : tail_rows_ok (inspect_go insp d ind 0 rest) := by
            rcases hR with h | h
            · rw [h, tail_rows_ok]; trivial
            · rw [h, tail_rows_ok, if_pos (by simp [limitRow])]
              intro s hs
              simp at hs
          rw [List.append_assoc _ (inspect_go insp (d + 1)
            (increase_indentation (d + 1) ind) 0 children ++ [closingRow ind d t])]
          apply tail_rows_ok_append_no_limit _ _ hfront
          apply tail_rows_ok_append_all_after
          · apply tail_rows_ok_append_all_after _ _ htc
            · intro r hr
              have : r = closingRow ind d t := by simpa using hr
              subst this
              right; rfl
            · exact tail_rows_ok_singleton_closing ind d t
          · exact hRkinds
          · exact hRtail
        · rw [List.append_assoc _ (inspect_go insp (d + 1)
            (increase_indentation (d + 1) ind) 0 children ++ [closingRow ind d t])]
          apply tail_rows_ok_append_no_limit _ _ hfront
          rw [List.append_assoc]
          apply tail_rows_ok_append_no_limit
          · intro r hr
            intro hk
            exact hlimc ⟨r, hr, hk⟩
          · apply tail_rows_ok_append_no_limit
            · intro r hr
              have : r = closingRow ind d t := by simpa using hr
              subst this
              simp [closingRow]
            · exact htr
      · rw [if_neg hc]
        rw [List.append_assoc _ ([] : List Row)]
        apply tail_rows_ok_append_no_limit _ _ hfront
        rw [List.nil_append]
        exact htr
    · intro r hr hk
      rcases inspect_go_display_mem hskip hlim hr with
        ⟨_, hr2⟩ | hr2 | hr2 | hr2 | ⟨hc, hr2 | hr2⟩ | hr2
      · subst hr2; simp [skipRow] at hk
      · rw [(write_field_if_present_mem insp.data d ind m r hr2).2.2] at hk
        simp at hk
      · rw [(write_annotations_if_present_mem insp.data d ind m r hr2).2.2] at hk
        simp at hk
      · subst hr2; simp [write_value] at hk
      · obtain ⟨u, hu, h⟩ := hexc r hr2 hk
        exact ⟨u, by rw [all_values_cons]; simp; right; left; exact hu, h⟩
      · subst hr2; simp [closingRow] at hk
      · obtain ⟨u, hu, h⟩ := hexr r hr2 hk
        exact ⟨u, by rw [all_values_cons]; simp; right; right; exact hu, h⟩

theorem inspect_go_limit_row_exists (insp : IonInspector) (hpos : 0 < insp.limit_bytes) :
    ∀ (vs : List IonTree) (d : Nat) (ind : String) (skipped : Nat) (lo hi : Nat),
      forest_wf lo hi vs →
      (∃ v ∈ vs, insp.bytes_to_skip + insp.limit_bytes ≤ tree_start v) →
      ∃ r ∈ inspect_go insp d ind skipped vs, r.kind = RowKind.limit_comment := by
  intro vs
  induction vs with
  | nil =>
    intro d ind skipped lo hi _ hex
    obtain ⟨v, hv, _⟩ := hex
    simp at hv
  | cons w rest ih =>
    intro d ind skipped lo hi hwf hex
    rcases w with ⟨t, m, c⟩
    rw [forest_wf] at hwf
    obtain ⟨h1, h2, h3, h4, hwc, hwr⟩ := hwf
    obtain ⟨v, hv, hvs⟩ := hex
    by_cases hskip : (complete_value_range m).stop ≤ insp.bytes_to_skip
    · rcases List.mem_cons.mp hv with hveq | hvmem
      · exfalso
        subst hveq
        rw [tree_start_node] at hvs
        rw [complete_value_range_stop, value_end] at hskip
        omega
      · rw [inspect_go, if_pos hskip]
        exact ih d ind _ (value_end m) hi hwr ⟨v, hvmem, hvs⟩
    · by_cases hlim : insp.limit_bytes ≤ (complete_value_range m).start - insp.bytes_to_skip
      · rw [inspect_go, if_neg hskip, if_pos hlim]
        exact ⟨limitRow ind d, by simp, rfl⟩
      · rcases List.mem_cons.mp hv with hveq | hvmem
        · exfalso
          subst hveq
          rw [tree_start_node] at hvs
          rw [complete_value_range_start] at hlim
          omega
        · obtain ⟨r, hr, hk⟩ := ih d ind 0 (value_end m) hi hwr ⟨v, hvmem, hvs⟩
          refine ⟨r, ?_, hk⟩
          rw [inspect_go, if_neg hskip, if_neg hlim]
          simp only [List.mem_append]
          exact Or.inr hr

/-- C6: with a positive byte limit `m`, once a limit comment has been
emitted, every later row of the run is either another limit comment or an
ordinary closing-delimiter row — no field-id, annotations, value or skip
rows are ever emitted again at any nesting level; every limit comment
carries no offset, length or hex payload and its "stepping out" versus
"ending" wording matches whether its emission depth was positive; whenever
a top-level value beginning at or beyond the limit window is present, a
limit comment row is emitted; and the closing rows shown while unwinding
are ordinary closing-delimiter rows (no offset, length or hex), not a
forced-closure marker. -/
theorem c6_limit_temporal (insp : IonInspector) (vs : List IonTree) (lo hi m : Nat)
    (hwf : forest_wf lo hi vs) (hm : insp.limit_bytes = m) (hpos : 0 < m) :
    tail_rows_ok (inspect insp vs) ∧
    (∀ r ∈ inspect insp vs, r.kind = RowKind.limit_comment →
      r.offset = none ∧ r.length = none ∧ r.hex = "..." ∧
      r.text = (if 0 < r.depth then "// --limit-bytes reached, stepping out."
                else "// --limit-bytes reached, ending.")) ∧
    ((∃ v ∈ vs, insp.bytes_to_skip + m ≤ tree_start v) →
      ∃ r ∈ inspect insp vs, r.kind = RowKind.limit_comment) ∧
    (∀ r ∈ inspect insp vs, r.kind = RowKind.closing →
      r.offset = none ∧ r.length = none ∧ r.hex = "") := by
  have hpos2 : 0 < insp.limit_bytes := by omega
  refine ⟨?_, ?_, ?_, ?_⟩
  · rw [inspect, inspect_level]
    exact (inspect_go_tail_ok insp hpos2 0 (increase_indentation 0 "") 0 vs lo hi hwf).1
  · intro r hr hk
    rw [inspect, inspect_level] at hr
    obtain ⟨i, d2, heq⟩ :=
      (inspect_go_row_shapes insp 0 (increase_indentation 0 "") 0 vs r hr).1 hk
    subst heq
    exact ⟨rfl, rfl, rfl, rfl⟩
  · intro hex
    rw [inspect, inspect_level]
    apply inspect_go_limit_row_exists insp hpos2 vs 0 (increase_indentation 0 "") 0 lo hi hwf
    rw [hm]
    exact hex
  · intro r hr hk
    rw [inspect, inspect_level] at hr
    obtain ⟨i, d2, t2, heq⟩ :=
      (inspect_go_row_shapes insp 0 (increase_indentation 0 "") 0 vs r hr).2 hk
    subst heq
    exact ⟨rfl, rfl, rfl⟩

theorem c6_limit_temporal_witness :
    forest_wf 4 8
      [IonTree.node IonType.integer ⟨4, 0, 1, false, none, none, "1", 0⟩ [],
       IonTree.node IonType.integer ⟨6, 0, 1, false, none, none, "2", 0⟩ []] ∧
    ((0 : Nat) < 1) ∧
    ∃ r ∈ inspect ⟨[224, 1, 0, 234, 33, 1, 33, 2], 0, 1⟩
        [IonTree.node IonType.integer ⟨4, 0, 1, false, none, none, "1", 0⟩ [],
         IonTree.node IonType.integer ⟨6, 0, 1, false, none, none, "2", 0⟩ []],
      r.kind = RowKind.limit_comment := by
  have hwf : forest_wf 4 8
      [IonTree.node IonType.integer ⟨4, 0, 1, false, none, none, "1", 0⟩ [],
       IonTree.node IonType.integer ⟨6, 0, 1, false, none, none, "2", 0⟩ []] := by
    simp [forest_wf, first_value_byte_offset, value_end]
  refine ⟨hwf, by decide, ?_⟩
  apply (c6_limit_temporal ⟨[224, 1, 0, 234, 33, 1, 33, 2], 0, 1⟩ _ 4 8 1 hwf rfl
    (by decide)).2.2.1
  exact ⟨IonTree.node IonType.integer ⟨4, 0, 1, false, none, none, "1", 0⟩ [],
    by simp, by decide⟩
